import Mathlib

/-!
Verification of the matching-simulation engine of the medical-internship
repository (src/utils.py, src/rsd.py, src/probability_trading.py, src/api.py).

The Python source is embedded shallowly:

* randomness (`np.random.shuffle`, `np.random.choice`, `np.random.randint`,
  `random.shuffle`) is modelled by an oracle stream `r : Nat -> Nat`; every
  draw of an index below `n` is `r pos % n` for the next stream position
  `pos`, so quantifying over `r` quantifies over every possible sequence of
  random draws;
* pandas DataFrames become lists of rows; dictionaries become association
  lists keyed by hospital name;
* Python exceptions (`KeyError` from a missing dictionary key or a missing
  row label) become `Except` errors;
* Python floats become exact rationals.
-/

open scoped List

namespace MedMatch

/-- The random oracle: position-indexed stream of natural numbers. -/
abbrev Rand := Nat → Nat

/-- Dictionary lookup (Python `d[k]` read), first binding wins. -/
def alookup (k : String) : List (String × α) → Option α
  | [] => none
  | (k', v) :: rest => if k' = k then some v else alookup k rest

/-- Dictionary write (Python `d[k] = v`) for a key already present. -/
def aset (k : String) (v : α) (l : List (String × α)) : List (String × α) :=
  l.map (fun p => if p.1 = k then (k, v) else p)

theorem aset_map_fst (k : String) (v : α) (l : List (String × α)) :
    (aset k v l).map Prod.fst = l.map Prod.fst := by
  induction l with
  | nil => rfl
  | cons p rest ih =>
    simp only [aset, List.map_cons] at *
    by_cases h : p.1 = k <;> simp [h, ih]

theorem mem_aset (k : String) (v : α) (l : List (String × α)) {q : String × α}
    (hq : q ∈ aset k v l) : q ∈ l ∨ q = (k, v) := by
  induction l with
  | nil => simp [aset] at hq
  | cons p rest ih =>
    simp only [aset, List.map_cons, List.mem_cons] at hq
    rcases hq with hq | hq
    · by_cases h : p.1 = k
      · simp [h] at hq; right; exact hq
      · simp [h] at hq; left; simp [hq]
    · rcases ih hq with h | h
      · left; simp [h]
      · right; exact h

theorem alookup_isSome_of_mem_fst {l : List (String × α)} {h : String}
    (hm : h ∈ l.map Prod.fst) : (alookup h l).isSome := by
  induction l with
  | nil => simp at hm
  | cons p rest ih =>
    simp only [List.map_cons, List.mem_cons] at hm
    by_cases he : p.1 = h
    · simp [alookup, he]
    · rcases hm with hm | hm
      · exact absurd hm.symm he
      · simp only [alookup, he, if_false]
        exact ih hm

theorem alookup_mem {l : List (String × α)} {h : String} {v : α}
    (hl : alookup h l = some v) : (h, v) ∈ l := by
  induction l with
  | nil => simp [alookup] at hl
  | cons p rest ih =>
    by_cases he : p.1 = h
    · simp only [alookup, he, if_true, Option.some.injEq] at hl
      subst hl
      have : (h, p.2) = p := by
        rw [← he]
      rw [this]
      exact List.mem_cons_self _ _
    · simp only [alookup, he, if_false] at hl
      exact List.mem_cons_of_mem _ (ih hl)

theorem alookup_eq_of_mem_of_nodup {l : List (String × α)} {h : String} {v : α}
    (hm : (h, v) ∈ l) (hnd : (l.map Prod.fst).Nodup) : alookup h l = some v := by
  induction l with
  | nil => simp at hm
  | cons p rest ih =>
    simp only [List.map_cons, List.nodup_cons] at hnd
    rcases List.mem_cons.mp hm with hm | hm
    · subst hm; simp [alookup]
    · have hne : p.1 ≠ h := by
        intro he
        exact hnd.1 (he ▸ (List.mem_map.mpr ⟨(h, v), hm, rfl⟩))
      simp only [alookup, hne, if_false]
      exact ih hm hnd.2

/-! ### Random index selection, shuffling, sampling without replacement

`np.random.shuffle` / `random.shuffle` of a list and
`np.random.choice(xs, size=k, replace=False)` are modelled by repeatedly
drawing an oracle index into the still-available elements and removing the
chosen element.  Any permutation / any k-subset is reachable for a suitable
oracle, and every oracle yields a permutation / a k-subset. -/

/-- One pass of index-selection shuffling (`np.random.shuffle`).  The fuel is
the number of selections; it is instantiated with the list length. -/
def shuffleGo [DecidableEq α] (r : Rand) : Nat → Nat → List α → List α → List α × Nat
  | 0, pos, xs, acc => (acc.reverse ++ xs, pos)
  | n + 1, pos, xs, acc =>
    match xs with
    | [] => (acc.reverse, pos)
    | x :: rest =>
      let i : Fin (x :: rest).length :=
        ⟨r pos % (x :: rest).length, Nat.mod_lt _ (Nat.succ_pos _)⟩
      shuffleGo r n (pos + 1) ((x :: rest).eraseIdx i) ((x :: rest).get i :: acc)

/-- Uniform shuffle of a list driven by the oracle. -/
def shuffle [DecidableEq α] (r : Rand) (pos : Nat) (xs : List α) : List α × Nat :=
  shuffleGo r xs.length pos xs []

theorem get_cons_eraseIdx_perm [DecidableEq α] (xs : List α) (i : Fin xs.length) :
    xs.get i :: xs.eraseIdx i ~ xs := by
  have h1 : xs ~ xs.get i :: xs.erase (xs.get i) :=
    List.perm_cons_erase (List.get_mem xs i.1 i.2)
  have h2 : xs.erase (xs.get i) ~ xs.eraseIdx i := by
    have := List.erase_getElem (l := xs) (i := i.1) i.2
    simpa [List.get_eq_getElem] using this
  exact ((h2.cons _).symm.trans h1.symm)

theorem shuffleGo_perm [DecidableEq α] (r : Rand) :
    ∀ (n pos : Nat) (xs acc : List α), (shuffleGo r n pos xs acc).1 ~ acc ++ xs := by
  intro n
  induction n with
  | zero =>
    intro pos xs acc
    simp [shuffleGo, List.reverse_perm]
    exact (List.reverse_perm acc).append_right xs
  | succ n ih =>
    intro pos xs acc
    match xs with
    | [] => simp [shuffleGo, List.reverse_perm]
    | x :: rest =>
      simp only [shuffleGo]
      set ys := x :: rest with hys
      set i : Fin ys.length := ⟨r pos % ys.length, Nat.mod_lt _ (by simp [hys])⟩ with hi
      have h1 := ih (pos + 1) (ys.eraseIdx i) (ys.get i :: acc)
      have h2 : (ys.get i :: acc) ++ ys.eraseIdx i ~ acc ++ ys := by
        have hperm : ys.get i :: ys.eraseIdx i ~ ys := get_cons_eraseIdx_perm ys i
        calc (ys.get i :: acc) ++ ys.eraseIdx i
            ~ acc ++ (ys.get i :: ys.eraseIdx i) := by
              simpa using (@List.perm_middle _ (ys.get i) acc (ys.eraseIdx i)).symm
          _ ~ acc ++ ys := hperm.append_left acc
      exact h1.trans h2

theorem shuffle_perm [DecidableEq α] (r : Rand) (pos : Nat) (xs : List α) :
    (shuffle r pos xs).1 ~ xs := by
  simpa using shuffleGo_perm r xs.length pos xs []

/-- Sampling `k` elements without replacement
(`np.random.choice(xs, size=k, replace=False)`).  Returns the selected
elements and the unselected remainder. -/
def sampleGo [DecidableEq α] (r : Rand) : Nat → Nat → List α → List α → List α × List α × Nat
  | 0, pos, xs, acc => (acc.reverse, xs, pos)
  | k + 1, pos, xs, acc =>
    match xs with
    | [] => (acc.reverse, [], pos)
    | x :: rest =>
      let i : Fin (x :: rest).length :=
        ⟨r pos % (x :: rest).length, Nat.mod_lt _ (Nat.succ_pos _)⟩
      sampleGo r k (pos + 1) ((x :: rest).eraseIdx i) ((x :: rest).get i :: acc)

theorem sampleGo_perm [DecidableEq α] (r : Rand) :
    ∀ (k pos : Nat) (xs acc : List α),
      (sampleGo r k pos xs acc).1 ++ (sampleGo r k pos xs acc).2.1 ~ acc ++ xs := by
  intro k
  induction k with
  | zero =>
    intro pos xs acc
    simp only [sampleGo]
    exact (List.reverse_perm acc).append_right xs
  | succ k ih =>
    intro pos xs acc
    match xs with
    | [] => simp [sampleGo, List.reverse_perm]
    | x :: rest =>
      simp only [sampleGo]
      set ys := x :: rest with hys
      set i : Fin ys.length := ⟨r pos % ys.length, Nat.mod_lt _ (by simp [hys])⟩ with hi
      have h1 := ih (pos + 1) (ys.eraseIdx i) (ys.get i :: acc)
      have h2 : (ys.get i :: acc) ++ ys.eraseIdx i ~ acc ++ ys := by
        have hperm : ys.get i :: ys.eraseIdx i ~ ys := get_cons_eraseIdx_perm ys i
        calc (ys.get i :: acc) ++ ys.eraseIdx i
            ~ acc ++ (ys.get i :: ys.eraseIdx i) := by
              simpa using (@List.perm_middle _ (ys.get i) acc (ys.eraseIdx i)).symm
          _ ~ acc ++ ys := hperm.append_left acc
      exact h1.trans h2

theorem sampleGo_fst_length [DecidableEq α] (r : Rand) :
    ∀ (k pos : Nat) (xs acc : List α),
      (sampleGo r k pos xs acc).1.length = acc.length + min k xs.length := by
  intro k
  induction k with
  | zero => intro pos xs acc; simp [sampleGo]
  | succ k ih =>
    intro pos xs acc
    match xs with
    | [] => simp [sampleGo]
    | x :: rest =>
      simp only [sampleGo]
      rw [ih]
      have hlt : r pos % (x :: rest).length < (x :: rest).length :=
        Nat.mod_lt _ (Nat.succ_pos _)
      have hlen := List.length_eraseIdx_of_lt hlt
      simp only [List.length_cons] at hlen ⊢
      omega

/-! ### The tie-aware deferred-acceptance matcher

Embedding of `match_interns_to_hospitals` (src/utils.py lines 159-252).
Interns are the row indices of the cohort; `cursors` is
`intern_current_priority`, `matches` is `current_matches`, and
`unmatched`/`newUnmatched` are the round's unmatched sets.  A Python
`KeyError` (hospital name absent from the capacity dictionary, or a row
label absent from the DataFrame) is `.error .keyError`; exhausted fuel of
the embedded while-loop is `.error .fuelOut`. -/

inductive DAErr where
  | keyError : DAErr
  | fuelOut : DAErr
deriving Repr, DecidableEq

structure DACtx where
  r : Rand
  data : List (List String)
  nCols : Nat
  caps : List (String × Nat)

structure DAState where
  cursors : List Nat
  held : List (String × List (Nat × Nat))
  unmatched : List Nat
  newUnmatched : List Nat
  pos : Nat

/-- `priority_groups`: the distinct proposal ranks present among a
hospital's holders, in ascending order (`sorted(priority_groups.keys())`). -/
def priosOf (holders : List (Nat × Nat)) : List Nat :=
  (List.range (((holders.map Prod.snd).foldr max 0) + 1)).filter
    (fun p => holders.any (fun ip => ip.2 = p))

/-- Group a hospital's holders by the rank at which they proposed. -/
def groupByPrio (holders : List (Nat × Nat)) : List (Nat × List Nat) :=
  (priosOf holders).map
    (fun p => (p, (holders.filter (fun ip => ip.2 = p)).map Prod.fst))

/-- The over-capacity resolution loop of `match_interns_to_hospitals`
(src/utils.py lines 209-239): walk the rank groups in ascending order;
accept a whole group that fits the remaining capacity, otherwise draw
exactly the remaining capacity from the group without replacement; every
holder not accepted, and every group after the stopping group, is rejected.
Returns `(accepted, rejectedInternIds, newStreamPos)`. -/
def acceptGroups (r : Rand) : Nat → Nat → List (Nat × List Nat) →
    List (Nat × Nat) × List Nat × Nat
  | _, pos, [] => ([], [], pos)
  | rem, pos, (p, g) :: rest =>
    if g.length ≤ rem then
      if rem - g.length = 0 then
        (g.map (fun i => (i, p)), (rest.map Prod.snd).flatten, pos)
      else
        let res := acceptGroups r (rem - g.length) pos rest
        (g.map (fun i => (i, p)) ++ res.1, res.2.1, res.2.2)
    else
      let s := sampleGo r rem pos g []
      (s.1.map (fun i => (i, p)), s.2.1 ++ (rest.map Prod.snd).flatten, s.2.2)

/-- One intern acting inside a round (the body of
`for intern in unmatched_list`, src/utils.py lines 188-239). -/
def processIntern (ctx : DACtx) (st : DAState) (i : Nat) : Except DAErr DAState :=
  let prio := st.cursors.getD i 0
  if prio ≥ ctx.nCols then .ok st
  else
    match ctx.data.get? i with
    | none => .error .keyError
    | some row =>
      match row.get? prio with
      | none => .error .keyError
      | some hosp =>
        let cursors' := st.cursors.set i (prio + 1)
        match alookup hosp st.held, alookup hosp ctx.caps with
        | some holders, some cap =>
          let holders' := holders ++ [(i, prio)]
          if holders'.length > cap then
            let res := acceptGroups ctx.r cap st.pos (groupByPrio holders')
            .ok { cursors := cursors', held := aset hosp res.1 st.held,
                  unmatched := st.unmatched,
                  newUnmatched := st.newUnmatched ++ res.2.1, pos := res.2.2 }
          else
            .ok { cursors := cursors', held := aset hosp holders' st.held,
                  unmatched := st.unmatched, newUnmatched := st.newUnmatched,
                  pos := st.pos }
        | _, _ => .error .keyError

/-- Process the round's shuffled unmatched interns in order. -/
def foldProcess (ctx : DACtx) : DAState → List Nat → Except DAErr DAState
  | st, [] => .ok st
  | st, i :: rest =>
    match processIntern ctx st i with
    | .error e => .error e
    | .ok st' => foldProcess ctx st' rest

/-- One round of the while-loop: shuffle the unmatched interns, let each
propose, then make the collected rejections the next round's unmatched set. -/
def daRound (ctx : DACtx) (st : DAState) : Except DAErr DAState :=
  match foldProcess ctx
      { st with pos := (shuffle ctx.r st.pos st.unmatched).2, newUnmatched := [] }
      (shuffle ctx.r st.pos st.unmatched).1 with
  | .error e => .error e
  | .ok st' => .ok { st' with unmatched := st'.newUnmatched, newUnmatched := [] }

/-- The while-loop (`while unmatched_interns:`), with fuel counting rounds. -/
def daLoop (ctx : DACtx) : Nat → DAState → Except DAErr DAState
  | 0, _ => .error .fuelOut
  | fuel + 1, st =>
    if st.unmatched.isEmpty then .ok st
    else
      match daRound ctx st with
      | .error e => .error e
      | .ok st' => daLoop ctx fuel st'

/-- The initial matcher state: every intern unmatched with cursor 0, every
hospital of the capacity table holding nobody. -/
def initState (K : Nat) (caps : List (String × Nat)) (pos : Nat) : DAState :=
  { cursors := List.replicate K 0,
    held := caps.map (fun p => (p.1, ([] : List (Nat × Nat)))),
    unmatched := List.range K,
    newUnmatched := [],
    pos := pos }

/-- `match_interns_to_hospitals` itself. -/
def matchInterns (r : Rand) (data : List (List String)) (nCols : Nat)
    (caps : List (String × Nat)) (pos fuel : Nat) : Except DAErr DAState :=
  daLoop { r := r, data := data, nCols := nCols, caps := caps } fuel
    (initState data.length caps pos)

/-- The final per-intern output row (`matches.loc[i]`): the hospital holding
intern `i` and the 1-based priority at which the intern proposed to it. -/
def finalAssignment (st : DAState) (i : Nat) : Option (String × Nat) :=
  st.held.findSome?
    (fun entry => (entry.2.find? (fun ip => ip.1 = i)).map
      (fun ip => (entry.1, ip.2 + 1)))

/-! ### The preference sampler

Embedding of `generate_interns_data` (src/utils.py lines 60-125): for each
intern, walk the rank columns while hospitals remain, drawing one
still-available hospital per rank (any categorical draw is an oracle-chosen
index), then append the remaining hospitals in uniform random order. -/

def samplePrefsGo (r : Rand) : Nat → Nat → List String → List String → List String × Nat
  | 0, pos, avail, acc =>
    let s := shuffle r pos avail
    (acc.reverse ++ s.1, s.2)
  | rank + 1, pos, avail, acc =>
    match avail with
    | [] => (acc.reverse, pos)
    | x :: rest =>
      let i : Fin (x :: rest).length :=
        ⟨r pos % (x :: rest).length, Nat.mod_lt _ (Nat.succ_pos _)⟩
      samplePrefsGo r rank (pos + 1) ((x :: rest).eraseIdx i) ((x :: rest).get i :: acc)

/-- One intern's sampled preference list (`R` rank columns, then the drain
loop over the remaining hospitals). -/
def samplePrefs (r : Rand) (pos R : Nat) (names : List String) : List String × Nat :=
  samplePrefsGo r R pos names []

/-- The row-building loops of `generate_interns_data` (src/utils.py lines
93-123): the list `all_priorities` of `n` independently sampled preference
lists.  The function's final packaging of these rows is
`generateInternsFrame` below. -/
def generateInternsData (r : Rand) (names : List String) (R : Nat) :
    Nat → Nat → List (List String) × Nat
  | 0, pos => ([], pos)
  | n + 1, pos =>
    let p := samplePrefs r pos R names
    let rest := generateInternsData r names R n p.2
    (p.1 :: rest.1, rest.2)

/-- `generate_interns_data` in full: the sampled rows are returned as
`pd.DataFrame(all_priorities, columns=priority_cols)` (src/utils.py line
125).  pandas raises whenever a passed row's length — always the hospital
count, since every row is a permutation — differs from the number of
column labels `R`; that error path is the `.error` case. -/
def generateInternsFrame (r : Rand) (names : List String) (R n pos : Nat) :
    Except String (List (List String) × Nat) :=
  if (generateInternsData r names R n pos).1.all (fun row => row.length = R) then
    .ok (generateInternsData r names R n pos)
  else .error "columns passed, passed data had a different number of columns"

/-! ### One trial and the Monte-Carlo driver -/

/-- `get_total_capacity`. -/
def totalCap (caps : List (String × Nat)) : Nat :=
  (caps.map Prod.snd).sum

/-- `simulate_single_intern_match` (src/utils.py lines 254-286): build the
cohort (the real candidate's list at row 0 plus `totalCapacity - 1` sampled
peers), run the matcher, and read off row 0 of the result.  A missing row 0
(the real candidate ended unmatched) is the Python `KeyError` of
`matches.loc[0, 'Hospital']`. -/
def simulateSingleInternMatch (r : Rand) (pos : Nat) (names : List String)
    (caps : List (String × Nat)) (internPriorities : List String)
    (totalCapacity fuel : Nat) : Except DAErr ((String × Nat) × Nat) :=
  let peers := generateInternsData r names names.length (totalCapacity - 1) pos
  let cohort := internPriorities :: peers.1
  match daLoop { r := r, data := cohort, nCols := names.length, caps := caps } fuel
      (initState cohort.length caps peers.2) with
  | .error e => .error e
  | .ok st =>
    match finalAssignment st 0 with
    | none => .error .keyError
    | some hp => .ok (hp, st.pos)

/-- The trial loop of `run_simulation` (src/utils.py lines 322-331),
collecting the real candidate's assigned hospital of each trial. -/
def runTrialsDA (r : Rand) (names : List String) (caps : List (String × Nat))
    (internData : List String) (fuel : Nat) : Nat → Nat → Except DAErr (List String × Nat)
  | 0, pos => .ok ([], pos)
  | m + 1, pos =>
    match simulateSingleInternMatch r pos names caps internData (totalCap caps) fuel with
    | .error e => .error e
    | .ok (hp, pos') =>
      match runTrialsDA r names caps internData fuel m pos' with
      | .error e => .error e
      | .ok (l, q) => .ok (hp.1 :: l, q)

/-- The aggregation of `run_simulation` (src/utils.py lines 333-343): the
percentage series over all hospitals of the priority table, zero for
hospitals never drawn, sorted descending. -/
def resultVector (hospitals : List String) (drawn : List String) (M : Nat) :
    List (String × ℚ) :=
  (hospitals.map (fun h => (h, ((drawn.count h : ℚ) / M) * 100))).mergeSort
    (fun a b => b.2 ≤ a.2)

/-- `run_simulation` (DA path): `M` trials, then aggregation.  The code
performs no validation of its inputs before the trial loop. -/
def runSimulationDA (r : Rand) (names : List String) (caps : List (String × Nat))
    (internData : List String) (M fuel : Nat) : Except DAErr (List (String × ℚ)) :=
  match runTrialsDA r names caps internData fuel M 0 with
  | .error e => .error e
  | .ok (drawn, _) => .ok (resultVector names drawn M)

/-! ### Properties of the over-capacity resolution -/

/-- The holder pairs represented by a group list. -/
def groupPairs (gs : List (Nat × List Nat)) : List (Nat × Nat) :=
  (gs.map (fun pg => pg.2.map (fun i => (i, pg.1)))).flatten

theorem mem_le_foldr_max (l : List Nat) {x : Nat} (hx : x ∈ l) : x ≤ l.foldr max 0 := by
  induction l with
  | nil => simp at hx
  | cons a t ih =>
    rcases List.mem_cons.mp hx with h | h
    · subst h; exact le_max_left _ _
    · exact le_trans (ih h) (le_max_right _ _)

theorem mem_priosOf {holders : List (Nat × Nat)} {ip : Nat × Nat} (h : ip ∈ holders) :
    ip.2 ∈ priosOf holders := by
  unfold priosOf
  rw [List.mem_filter]
  refine ⟨?_, ?_⟩
  · rw [List.mem_range]
    have : ip.2 ≤ (holders.map Prod.snd).foldr max 0 :=
      mem_le_foldr_max _ (List.mem_map.mpr ⟨ip, h, rfl⟩)
    omega
  · simp only [List.any_eq_true, decide_eq_true_eq]
    exact ⟨ip, h, rfl⟩

theorem priosOf_nodup (holders : List (Nat × Nat)) : (priosOf holders).Nodup :=
  (List.nodup_range _).filter _

theorem priosOf_sorted (holders : List (Nat × Nat)) :
    (priosOf holders).Pairwise (· < ·) :=
  (List.pairwise_lt_range _).sublist (List.filter_sublist _)

theorem groupByPrio_map_fst (hl : List (Nat × Nat)) :
    (groupByPrio hl).map Prod.fst = priosOf hl := by
  unfold groupByPrio
  rw [List.map_map]
  exact List.map_id _ ▸ rfl

theorem flatten_filter_perm :
    ∀ (ps : List Nat) (hl : List (Nat × Nat)), ps.Nodup →
      (∀ ip ∈ hl, ip.2 ∈ ps) →
      (ps.map (fun p => hl.filter (fun ip => ip.2 = p))).flatten ~ hl := by
  intro ps
  induction ps with
  | nil =>
    intro hl _ hcov
    have : hl = [] :=
      List.eq_nil_iff_forall_not_mem.mpr (fun x hx => by simpa using hcov x hx)
    simp [this]
  | cons p ps ih =>
    intro hl hnd hcov
    simp only [List.map_cons, List.flatten_cons]
    have hnd' := List.nodup_cons.mp hnd
    have heq : ∀ q ∈ ps, hl.filter (fun ip => ip.2 = q)
        = (hl.filter (fun ip => !decide (ip.2 = p))).filter (fun ip => ip.2 = q) := by
      intro q hq
      rw [List.filter_filter]
      apply List.filter_congr
      intro ip _
      have hqp : q ≠ p := fun he => hnd'.1 (he ▸ hq)
      by_cases hip : ip.2 = q
      · simp [hip, hqp]
      · simp [hip]
    rw [List.map_congr_left heq]
    have hcov' : ∀ ip ∈ hl.filter (fun ip => !decide (ip.2 = p)), ip.2 ∈ ps := by
      intro ip hip
      have hm := List.mem_filter.mp hip
      have h1 := hcov ip hm.1
      have h2 : ip.2 ≠ p := by
        have := hm.2
        simp at this
        exact this
      rcases List.mem_cons.mp h1 with h | h
      · exact absurd h h2
      · exact h
    have ihp := ih (hl.filter (fun ip => !decide (ip.2 = p))) hnd'.2 hcov'
    calc hl.filter (fun ip => ip.2 = p)
          ++ (ps.map (fun q =>
            (hl.filter (fun ip => !decide (ip.2 = p))).filter (fun ip => ip.2 = q))).flatten
        ~ hl.filter (fun ip => ip.2 = p)
          ++ hl.filter (fun ip => !decide (ip.2 = p)) := ihp.append_left _
      _ ~ hl := List.filter_append_perm _ hl

theorem groupByPrio_flat_perm (hl : List (Nat × Nat)) :
    groupPairs (groupByPrio hl) ~ hl := by
  unfold groupPairs groupByPrio
  rw [List.map_map]
  have heq : ∀ p ∈ priosOf hl,
      ((fun pg : Nat × List Nat => pg.2.map (fun i => (i, pg.1))) ∘
        (fun p => (p, (hl.filter (fun ip => ip.2 = p)).map Prod.fst))) p
      = hl.filter (fun ip => ip.2 = p) := by
    intro p _
    simp only [Function.comp]
    rw [List.map_map]
    have : ∀ ip ∈ hl.filter (fun ip => ip.2 = p),
        ((fun i => (i, p)) ∘ Prod.fst) ip = ip := by
      intro ip hip
      have := (List.mem_filter.mp hip).2
      simp only [decide_eq_true_eq] at this
      simp only [Function.comp]
      rw [← this]
    rw [List.map_congr_left this]
    simp
  rw [List.map_congr_left heq]
  exact flatten_filter_perm (priosOf hl) hl (priosOf_nodup hl)
    (fun ip h => mem_priosOf h)

theorem acceptGroups_acc_length_le (r : Rand) :
    ∀ (gs : List (Nat × List Nat)) (rem pos : Nat),
      (acceptGroups r rem pos gs).1.length ≤ rem := by
  intro gs
  induction gs with
  | nil => intro rem pos; simp [acceptGroups]
  | cons pg rest ih =>
    intro rem pos
    obtain ⟨p, g⟩ := pg
    simp only [acceptGroups]
    by_cases h1 : g.length ≤ rem
    · by_cases h2 : rem - g.length = 0
      · simp only [h1, if_true, h2, if_true]
        simpa using h1
      · simp only [h1, if_true, h2, if_false]
        have := ih (rem - g.length) pos
        simp only [List.length_append, List.length_map]
        omega
    · simp only [h1, if_false]
      simp only [List.length_map]
      rw [sampleGo_fst_length]
      simp only [List.length_nil]
      omega

theorem acceptGroups_acc_length_eq (r : Rand) :
    ∀ (gs : List (Nat × List Nat)) (rem pos : Nat),
      rem < ((gs.map Prod.snd).flatten).length →
      (acceptGroups r rem pos gs).1.length = rem := by
  intro gs
  induction gs with
  | nil => intro rem pos h; simp at h
  | cons pg rest ih =>
    intro rem pos h
    obtain ⟨p, g⟩ := pg
    simp only [List.map_cons, List.flatten_cons, List.length_append] at h
    simp only [acceptGroups]
    by_cases h1 : g.length ≤ rem
    · by_cases h2 : rem - g.length = 0
      · simp only [h1, if_true, h2, if_true]
        simp only [List.length_map]
        omega
      · simp only [h1, if_true, h2, if_false]
        have := ih (rem - g.length) pos (by omega)
        simp only [List.length_append, List.length_map]
        omega
    · simp only [h1, if_false]
      simp only [List.length_map]
      rw [sampleGo_fst_length]
      simp only [List.length_nil]
      omega

theorem acceptGroups_ids_perm (r : Rand) :
    ∀ (gs : List (Nat × List Nat)) (rem pos : Nat),
      (acceptGroups r rem pos gs).1.map Prod.fst ++ (acceptGroups r rem pos gs).2.1
        ~ (gs.map Prod.snd).flatten := by
  intro gs
  induction gs with
  | nil => intro rem pos; simp [acceptGroups]
  | cons pg rest ih =>
    intro rem pos
    obtain ⟨p, g⟩ := pg
    simp only [acceptGroups, List.map_cons, List.flatten_cons]
    by_cases h1 : g.length ≤ rem
    · by_cases h2 : rem - g.length = 0
      · simp only [h1, if_true, h2, if_true]
        have : (g.map (fun i => (i, p))).map Prod.fst = g := by
          rw [List.map_map]; exact List.map_id _ ▸ rfl
        rw [this]
      · simp only [h1, if_true, h2, if_false]
        have hmap : ((g.map (fun i => (i, p)) ++ (acceptGroups r (rem - g.length) pos rest).1).map
            Prod.fst) = g ++ (acceptGroups r (rem - g.length) pos rest).1.map Prod.fst := by
          rw [List.map_append, List.map_map]
          exact congrArg (· ++ _) (List.map_id _ ▸ rfl)
        rw [hmap, List.append_assoc]
        exact (ih (rem - g.length) pos).append_left g
    · simp only [h1, if_false]
      have hmap : ((sampleGo r rem pos g []).1.map (fun i => (i, p))).map Prod.fst
          = (sampleGo r rem pos g []).1 := by
        rw [List.map_map]; exact List.map_id _ ▸ rfl
      rw [hmap]
      have hperm : (sampleGo r rem pos g []).1 ++ (sampleGo r rem pos g []).2.1 ~ g := by
        simpa using sampleGo_perm r rem pos g []
      calc (sampleGo r rem pos g []).1
            ++ ((sampleGo r rem pos g []).2.1 ++ (rest.map Prod.snd).flatten)
          ~ ((sampleGo r rem pos g []).1 ++ (sampleGo r rem pos g []).2.1)
            ++ (rest.map Prod.snd).flatten := by rw [List.append_assoc]
        _ ~ g ++ (rest.map Prod.snd).flatten := hperm.append_right _

theorem acceptGroups_acc_subset (r : Rand) :
    ∀ (gs : List (Nat × List Nat)) (rem pos : Nat) (ip : Nat × Nat),
      ip ∈ (acceptGroups r rem pos gs).1 → ip ∈ groupPairs gs := by
  intro gs
  induction gs with
  | nil => intro rem pos ip h; simp [acceptGroups] at h
  | cons pg rest ih =>
    intro rem pos ip h
    obtain ⟨p, g⟩ := pg
    simp only [acceptGroups] at h
    simp only [groupPairs, List.map_cons, List.flatten_cons, List.mem_append]
    by_cases h1 : g.length ≤ rem
    · by_cases h2 : rem - g.length = 0
      · simp only [h1, if_true, h2, if_true] at h
        exact Or.inl h
      · simp only [h1, if_true, h2, if_false, List.mem_append] at h
        rcases h with h | h
        · exact Or.inl h
        · exact Or.inr (ih _ pos ip h)
    · simp only [h1, if_false] at h
      refine Or.inl ?_
      rcases List.mem_map.mp h with ⟨i, hi, he⟩
      have hsub : (sampleGo r rem pos g []).1 ++ (sampleGo r rem pos g []).2.1 ~ g := by
        simpa using sampleGo_perm r rem pos g []
      have : i ∈ g := hsub.mem_iff.mp (List.mem_append.mpr (Or.inl hi))
      exact List.mem_map.mpr ⟨i, this, he⟩

theorem acceptGroups_rej_mem (r : Rand) :
    ∀ (gs : List (Nat × List Nat)) (rem pos : Nat) (j : Nat),
      j ∈ (acceptGroups r rem pos gs).2.1 → ∃ qg ∈ gs, j ∈ qg.2 := by
  intro gs
  induction gs with
  | nil => intro rem pos j h; simp [acceptGroups] at h
  | cons pg rest ih =>
    intro rem pos j h
    obtain ⟨p, g⟩ := pg
    simp only [acceptGroups] at h
    by_cases h1 : g.length ≤ rem
    · by_cases h2 : rem - g.length = 0
      · simp only [h1, if_true, h2, if_true] at h
        rcases List.mem_flatten.mp h with ⟨l, hl, hj⟩
        rcases List.mem_map.mp hl with ⟨qg, hqg, he⟩
        exact ⟨qg, List.mem_cons_of_mem _ hqg, he ▸ hj⟩
      · simp only [h1, if_true, h2, if_false] at h
        rcases ih _ pos j h with ⟨qg, hqg, hj⟩
        exact ⟨qg, List.mem_cons_of_mem _ hqg, hj⟩
    · simp only [h1, if_false, List.mem_append] at h
      rcases h with h | h
      · have hsub : (sampleGo r rem pos g []).1 ++ (sampleGo r rem pos g []).2.1 ~ g := by
          simpa using sampleGo_perm r rem pos g []
        have : j ∈ g := hsub.mem_iff.mp (List.mem_append.mpr (Or.inr h))
        exact ⟨(p, g), List.mem_cons_self _ _, this⟩
      · rcases List.mem_flatten.mp h with ⟨l, hl, hj⟩
        rcases List.mem_map.mp hl with ⟨qg, hqg, he⟩
        exact ⟨qg, List.mem_cons_of_mem _ hqg, he ▸ hj⟩

theorem acceptGroups_rank_le (r : Rand) :
    ∀ (gs : List (Nat × List Nat)) (rem pos : Nat),
      (gs.map Prod.fst).Pairwise (· < ·) →
      ∀ ip ∈ (acceptGroups r rem pos gs).1, ∀ j ∈ (acceptGroups r rem pos gs).2.1,
        ∃ qg ∈ gs, j ∈ qg.2 ∧ ip.2 ≤ qg.1 := by
  intro gs
  induction gs with
  | nil => intro rem pos _ ip hip; simp [acceptGroups] at hip
  | cons pg rest ih =>
    intro rem pos hsort ip hip j hj
    obtain ⟨p, g⟩ := pg
    simp only [List.map_cons, List.pairwise_cons] at hsort
    simp only [acceptGroups] at hip hj
    by_cases h1 : g.length ≤ rem
    · by_cases h2 : rem - g.length = 0
      · simp only [h1, if_true, h2, if_true] at hip hj
        rcases List.mem_map.mp hip with ⟨i, _, he⟩
        rcases List.mem_flatten.mp hj with ⟨l, hl, hjl⟩
        rcases List.mem_map.mp hl with ⟨qg, hqg, hle⟩
        refine ⟨qg, List.mem_cons_of_mem _ hqg, hle ▸ hjl, ?_⟩
        have : p < qg.1 := hsort.1 qg.1 (List.mem_map.mpr ⟨qg, hqg, rfl⟩)
        have hip2 : ip.2 = p := by rw [← he]
        omega
      · simp only [h1, if_true, h2, if_false, List.mem_append] at hip hj
        rcases hip with hip | hip
        · rcases List.mem_map.mp hip with ⟨i, _, he⟩
          rcases acceptGroups_rej_mem r rest _ pos j hj with ⟨qg, hqg, hjg⟩
          refine ⟨qg, List.mem_cons_of_mem _ hqg, hjg, ?_⟩
          have : p < qg.1 := hsort.1 qg.1 (List.mem_map.mpr ⟨qg, hqg, rfl⟩)
          have hip2 : ip.2 = p := by rw [← he]
          omega
        · rcases ih _ pos hsort.2 ip hip j hj with ⟨qg, hqg, hjg, hle⟩
          exact ⟨qg, List.mem_cons_of_mem _ hqg, hjg, hle⟩
    · simp only [h1, if_false, List.mem_append] at hip hj
      rcases List.mem_map.mp hip with ⟨i, _, he⟩
      have hip2 : ip.2 = p := by rw [← he]
      rcases hj with hj | hj
      · have hsub : (sampleGo r rem pos g []).1 ++ (sampleGo r rem pos g []).2.1 ~ g := by
          simpa using sampleGo_perm r rem pos g []
        have : j ∈ g := hsub.mem_iff.mp (List.mem_append.mpr (Or.inr hj))
        exact ⟨(p, g), List.mem_cons_self _ _, this, by omega⟩
      · rcases List.mem_flatten.mp hj with ⟨l, hl, hjl⟩
        rcases List.mem_map.mp hl with ⟨qg, hqg, hle⟩
        refine ⟨qg, List.mem_cons_of_mem _ hqg, hle ▸ hjl, ?_⟩
        have : p < qg.1 := hsort.1 qg.1 (List.mem_map.mpr ⟨qg, hqg, rfl⟩)
        omega

/-! ### Invariants of the matcher state -/

/-- Every hospital's holder list respects its capacity. -/
def HeldCap (ctx : DACtx) (st : DAState) : Prop :=
  ∀ e ∈ st.held, ∀ cap, alookup e.1 ctx.caps = some cap → e.2.length ≤ cap

/-- Every holder pair `(i, p)` records a genuine proposal: row `i` of the
cohort exists and names this hospital at position `p`. -/
def HeldRow (ctx : DACtx) (st : DAState) : Prop :=
  ∀ e ∈ st.held, ∀ ip ∈ e.2,
    ∃ row, ctx.data.get? ip.1 = some row ∧ row.get? ip.2 = some e.1

/-- The held table is keyed exactly by the capacity table's hospitals. -/
def HeldKeys (ctx : DACtx) (st : DAState) : Prop :=
  st.held.map Prod.fst = ctx.caps.map Prod.fst

/-- Full case analysis of one intern's action. -/
theorem processIntern_inv {ctx : DACtx} {st : DAState} {i : Nat} {st' : DAState}
    (h : processIntern ctx st i = .ok st') :
    st' = st ∨
    ∃ row hosp holders cap,
      st.cursors.getD i 0 < ctx.nCols ∧
      ctx.data.get? i = some row ∧
      row.get? (st.cursors.getD i 0) = some hosp ∧
      alookup hosp st.held = some holders ∧
      alookup hosp ctx.caps = some cap ∧
      st'.cursors = st.cursors.set i (st.cursors.getD i 0 + 1) ∧
      st'.unmatched = st.unmatched ∧
      ((cap < (holders ++ [(i, st.cursors.getD i 0)]).length ∧
        st'.held = aset hosp
          (acceptGroups ctx.r cap st.pos
            (groupByPrio (holders ++ [(i, st.cursors.getD i 0)]))).1 st.held ∧
        st'.newUnmatched = st.newUnmatched ++
          (acceptGroups ctx.r cap st.pos
            (groupByPrio (holders ++ [(i, st.cursors.getD i 0)]))).2.1 ∧
        st'.pos = (acceptGroups ctx.r cap st.pos
            (groupByPrio (holders ++ [(i, st.cursors.getD i 0)]))).2.2) ∨
       ((holders ++ [(i, st.cursors.getD i 0)]).length ≤ cap ∧
        st'.held = aset hosp (holders ++ [(i, st.cursors.getD i 0)]) st.held ∧
        st'.newUnmatched = st.newUnmatched ∧
        st'.pos = st.pos)) := by
  unfold processIntern at h
  by_cases hge : st.cursors.getD i 0 ≥ ctx.nCols
  · rw [if_pos hge] at h
    exact Or.inl (Except.ok.inj h).symm
  · rw [if_neg hge] at h
    cases hrow : ctx.data.get? i with
    | none => rw [hrow] at h; cases h
    | some row =>
      rw [hrow] at h
      dsimp only [] at h
      cases hcol : row.get? (st.cursors.getD i 0) with
      | none => rw [hcol] at h; cases h
      | some hosp =>
        rw [hcol] at h
        dsimp only [] at h
        cases hold : alookup hosp st.held with
        | none => rw [hold] at h; cases h
        | some holders =>
          rw [hold] at h
          cases hcap : alookup hosp ctx.caps with
          | none => rw [hcap] at h; cases h
          | some cap =>
            rw [hcap] at h
            dsimp only [] at h
            refine Or.inr ⟨row, hosp, holders, cap, by omega, rfl, hcol, hold, hcap, ?_⟩
            by_cases hover : (holders ++ [(i, st.cursors.getD i 0)]).length > cap
            · rw [if_pos hover] at h
              have he := (Except.ok.inj h).symm
              subst he
              exact ⟨rfl, rfl, Or.inl ⟨by omega, rfl, rfl, rfl⟩⟩
            · rw [if_neg hover] at h
              have he := (Except.ok.inj h).symm
              subst he
              exact ⟨rfl, rfl, Or.inr ⟨by omega, rfl, rfl, rfl⟩⟩

theorem foldProcess_pres {ctx : DACtx} {P : DAState → Prop}
    (hstep : ∀ st i st', P st → processIntern ctx st i = .ok st' → P st') :
    ∀ (l : List Nat) (st st' : DAState), P st → foldProcess ctx st l = .ok st' → P st' := by
  intro l
  induction l with
  | nil =>
    intro st st' hP h
    simp only [foldProcess] at h
    exact (Except.ok.inj h) ▸ hP
  | cons i rest ih =>
    intro st st' hP h
    simp only [foldProcess] at h
    cases hpi : processIntern ctx st i with
    | error e => rw [hpi] at h; cases h
    | ok st1 => rw [hpi] at h; exact ih st1 st' (hstep st i st1 hP hpi) h

theorem daRound_pres {ctx : DACtx} {P : DAState → Prop}
    (hstep : ∀ st i st', P st → processIntern ctx st i = .ok st' → P st')
    (hproj : ∀ st u nu p, P st →
      P { st with unmatched := u, newUnmatched := nu, pos := p }) :
    ∀ (st st' : DAState), P st → daRound ctx st = .ok st' → P st' := by
  intro st st' hP h
  unfold daRound at h
  cases hf : (foldProcess ctx
      { st with pos := (shuffle ctx.r st.pos st.unmatched).2, newUnmatched := [] }
      (shuffle ctx.r st.pos st.unmatched).1) with
  | error e => rw [hf] at h; cases h
  | ok st1 =>
    rw [hf] at h
    have h1 : P { st with pos := (shuffle ctx.r st.pos st.unmatched).2, newUnmatched := [] } :=
      hproj st st.unmatched [] _ hP
    have h2 := foldProcess_pres hstep _ _ _ h1 hf
    have he := Except.ok.inj h
    rw [← he]
    exact hproj st1 st1.newUnmatched [] st1.pos h2

theorem daLoop_pres {ctx : DACtx} {P : DAState → Prop}
    (hstep : ∀ st i st', P st → processIntern ctx st i = .ok st' → P st')
    (hproj : ∀ st u nu p, P st →
      P { st with unmatched := u, newUnmatched := nu, pos := p }) :
    ∀ (fuel : Nat) (st st' : DAState), P st → daLoop ctx fuel st = .ok st' → P st' := by
  intro fuel
  induction fuel with
  | zero => intro st st' _ h; cases h
  | succ fuel ih =>
    intro st st' hP h
    simp only [daLoop] at h
    by_cases hu : st.unmatched.isEmpty
    · rw [if_pos hu] at h
      exact (Except.ok.inj h) ▸ hP
    · rw [if_neg hu] at h
      cases hr : daRound ctx st with
      | error e => rw [hr] at h; cases h
      | ok st1 =>
        rw [hr] at h
        exact ih st1 st' (daRound_pres hstep hproj st st1 hP hr) h

theorem heldCap_step {ctx : DACtx} :
    ∀ st i st', HeldCap ctx st → processIntern ctx st i = .ok st' → HeldCap ctx st' := by
  intro st i st' hP h
  rcases processIntern_inv h with he |
    ⟨row, hosp, holders, cap, hlt, hrow, hcol, hold, hcap, hc, hu, hbr⟩
  · exact he ▸ hP
  · intro e he' cap' hcap'
    rcases hbr with ⟨hov, hheld, _, _⟩ | ⟨hle, hheld, _, _⟩
    · rw [hheld] at he'
      rcases mem_aset _ _ _ he' with hmem | hmem
      · exact hP e hmem cap' hcap'
      · have h1 : e.1 = hosp := by rw [hmem]
        have h2 : e.2 = (acceptGroups ctx.r cap st.pos
            (groupByPrio (holders ++ [(i, st.cursors.getD i 0)]))).1 := by rw [hmem]
        rw [h1, hcap] at hcap'
        have hcc : cap' = cap := (Option.some.inj hcap').symm
        rw [h2, hcc]
        exact acceptGroups_acc_length_le ctx.r _ cap st.pos
    · rw [hheld] at he'
      rcases mem_aset _ _ _ he' with hmem | hmem
      · exact hP e hmem cap' hcap'
      · have h1 : e.1 = hosp := by rw [hmem]
        have h2 : e.2 = holders ++ [(i, st.cursors.getD i 0)] := by rw [hmem]
        rw [h1, hcap] at hcap'
        have hcc : cap' = cap := (Option.some.inj hcap').symm
        rw [h2, hcc]
        exact hle

theorem heldRow_step {ctx : DACtx} :
    ∀ st i st', HeldRow ctx st → processIntern ctx st i = .ok st' → HeldRow ctx st' := by
  intro st i st' hP h
  rcases processIntern_inv h with he |
    ⟨row, hosp, holders, cap, hlt, hrow, hcol, hold, hcap, hc, hu, hbr⟩
  · exact he ▸ hP
  · have hbase : ∀ ip ∈ holders ++ [(i, st.cursors.getD i 0)],
        ∃ rw, ctx.data.get? ip.1 = some rw ∧ rw.get? ip.2 = some hosp := by
      intro ip hip
      rcases List.mem_append.mp hip with hm | hm
      · exact hP (hosp, holders) (alookup_mem hold) ip hm
      · have : ip = (i, st.cursors.getD i 0) := by simpa using hm
        subst this
        exact ⟨row, hrow, hcol⟩
    intro e he' ip hip
    rcases hbr with ⟨hov, hheld, _, _⟩ | ⟨hle, hheld, _, _⟩
    · rw [hheld] at he'
      rcases mem_aset _ _ _ he' with hmem | hmem
      · exact hP e hmem ip hip
      · have h1 : e.1 = hosp := by rw [hmem]
        have h2 : e.2 = (acceptGroups ctx.r cap st.pos
            (groupByPrio (holders ++ [(i, st.cursors.getD i 0)]))).1 := by rw [hmem]
        rw [h2] at hip
        have hgp : ip ∈ groupPairs (groupByPrio (holders ++ [(i, st.cursors.getD i 0)])) :=
          acceptGroups_acc_subset ctx.r _ cap st.pos ip hip
        have hmem' : ip ∈ holders ++ [(i, st.cursors.getD i 0)] :=
          (groupByPrio_flat_perm _).mem_iff.mp hgp
        rw [h1]
        exact hbase ip hmem'
    · rw [hheld] at he'
      rcases mem_aset _ _ _ he' with hmem | hmem
      · exact hP e hmem ip hip
      · have h1 : e.1 = hosp := by rw [hmem]
        have h2 : e.2 = holders ++ [(i, st.cursors.getD i 0)] := by rw [hmem]
        rw [h2] at hip
        rw [h1]
        exact hbase ip hip

theorem heldKeys_step {ctx : DACtx} :
    ∀ st i st', HeldKeys ctx st → processIntern ctx st i = .ok st' → HeldKeys ctx st' := by
  intro st i st' hP h
  rcases processIntern_inv h with he |
    ⟨row, hosp, holders, cap, hlt, hrow, hcol, hold, hcap, hc, hu, hbr⟩
  · exact he ▸ hP
  · unfold HeldKeys at *
    rcases hbr with ⟨_, hheld, _, _⟩ | ⟨_, hheld, _, _⟩ <;>
      rw [hheld, aset_map_fst, hP]

/-- The three held-table invariants bundled. -/
def HeldInv (ctx : DACtx) (st : DAState) : Prop :=
  HeldCap ctx st ∧ HeldRow ctx st ∧ HeldKeys ctx st

theorem heldInv_initState (ctx : DACtx) (K pos : Nat) :
    HeldInv ctx (initState K ctx.caps pos) := by
  refine ⟨?_, ?_, ?_⟩
  · intro e he cap hcap
    rcases List.mem_map.mp he with ⟨p0, _, hp0⟩
    have : e.2 = [] := by rw [← hp0]
    simp [this]
  · intro e he ip hip
    rcases List.mem_map.mp he with ⟨p0, _, hp0⟩
    have : e.2 = [] := by rw [← hp0]
    rw [this] at hip
    simp at hip
  · unfold HeldKeys initState
    simp

theorem daLoop_heldInv {ctx : DACtx} {fuel : Nat} {st st' : DAState}
    (hP : HeldInv ctx st) (h : daLoop ctx fuel st = .ok st') : HeldInv ctx st' := by
  refine daLoop_pres ?_ ?_ fuel st st' hP h
  · intro s i s' hI hs
    exact ⟨heldCap_step s i s' hI.1 hs, heldRow_step s i s' hI.2.1 hs,
      heldKeys_step s i s' hI.2.2 hs⟩
  · intro s u nu p hI
    exact hI

/-- Reading row `i` of the matcher output: the hospital entry holding `i`. -/
theorem finalAssignment_inv {st : DAState} {i : Nat} {h : String} {p : Nat}
    (hf : finalAssignment st i = some (h, p)) :
    ∃ hl, (h, hl) ∈ st.held ∧ ∃ q, (i, q) ∈ hl ∧ p = q + 1 := by
  unfold finalAssignment at hf
  rcases List.exists_of_findSome?_eq_some hf with ⟨e, he, hfe⟩
  cases hfind : e.2.find? (fun ip => ip.1 = i) with
  | none => rw [hfind] at hfe; cases hfe
  | some ip =>
    rw [hfind] at hfe
    simp only [Option.map_some'] at hfe
    have hpair := Option.some.inj hfe
    have h1 : e.1 = h := congrArg Prod.fst hpair
    have h2 : ip.2 + 1 = p := congrArg Prod.snd hpair
    have hmem := List.mem_of_find?_eq_some hfind
    have hpred := List.find?_some hfind
    simp only [decide_eq_true_eq] at hpred
    refine ⟨e.2, ?_, ip.2, ?_, h2.symm⟩
    · have : (e.1, e.2) = e := rfl
      rw [← h1]
      rw [this]
      exact he
    · have : (ip.1, ip.2) = ip := rfl
      rw [← hpred]
      rw [this]
      exact hmem

/-! ### Properties of the preference sampler -/

theorem samplePrefsGo_perm (r : Rand) :
    ∀ (R pos : Nat) (avail acc : List String),
      (samplePrefsGo r R pos avail acc).1 ~ acc ++ avail := by
  intro R
  induction R with
  | zero =>
    intro pos avail acc
    simp only [samplePrefsGo]
    have h1 : (shuffle r pos avail).1 ~ avail := shuffle_perm r pos avail
    calc acc.reverse ++ (shuffle r pos avail).1
        ~ acc ++ (shuffle r pos avail).1 := (List.reverse_perm acc).append_right _
      _ ~ acc ++ avail := h1.append_left acc
  | succ R ih =>
    intro pos avail acc
    match avail with
    | [] => simp [samplePrefsGo, List.reverse_perm]
    | x :: rest =>
      simp only [samplePrefsGo]
      set ys := x :: rest with hys
      set i : Fin ys.length := ⟨r pos % ys.length, Nat.mod_lt _ (by simp [hys])⟩ with hi
      have h1 := ih (pos + 1) (ys.eraseIdx i) (ys.get i :: acc)
      have h2 : (ys.get i :: acc) ++ ys.eraseIdx i ~ acc ++ ys := by
        have hperm : ys.get i :: ys.eraseIdx i ~ ys := get_cons_eraseIdx_perm ys i
        calc (ys.get i :: acc) ++ ys.eraseIdx i
            ~ acc ++ (ys.get i :: ys.eraseIdx i) := by
              simpa using (@List.perm_middle _ (ys.get i) acc (ys.eraseIdx i)).symm
          _ ~ acc ++ ys := hperm.append_left acc
      exact h1.trans h2

theorem samplePrefs_perm (r : Rand) (pos R : Nat) (names : List String) :
    (samplePrefs r pos R names).1 ~ names := by
  simpa using samplePrefsGo_perm r R pos names []

theorem generateInternsData_length (r : Rand) (names : List String) (R : Nat) :
    ∀ (n pos : Nat), (generateInternsData r names R n pos).1.length = n := by
  intro n
  induction n with
  | zero => intro pos; simp [generateInternsData]
  | succ n ih => intro pos; simp [generateInternsData, ih]

theorem generateInternsData_mem (r : Rand) (names : List String) (R : Nat) :
    ∀ (n pos : Nat), ∀ row ∈ (generateInternsData r names R n pos).1, row ~ names := by
  intro n
  induction n with
  | zero => intro pos row hrow; simp [generateInternsData] at hrow
  | succ n ih =>
    intro pos row hrow
    simp only [generateInternsData, List.mem_cons] at hrow
    rcases hrow with h | h
    · exact h ▸ samplePrefs_perm r pos R names
    · exact ih _ row h

/-! ### Properties of the aggregation -/

theorem sum_map_add_nat (l : List α) (f g : α → ℕ) :
    (l.map (fun x => f x + g x)).sum = (l.map f).sum + (l.map g).sum := by
  induction l with
  | nil => simp
  | cons a t ih => simp only [List.map_cons, List.sum_cons, ih]; omega

theorem sum_map_ind_zero {l : List String} {d : String} (hd : d ∉ l) :
    (l.map (fun h => if d = h then (1 : ℕ) else 0)).sum = 0 := by
  induction l with
  | nil => simp
  | cons a t ih =>
    have h1 : d ≠ a := fun he => hd (he ▸ List.mem_cons_self a t)
    have h2 : d ∉ t := fun ht => hd (List.mem_cons_of_mem _ ht)
    simp only [List.map_cons, List.sum_cons, h1, if_false, ih h2]

theorem sum_map_ind {l : List String} {d : String} (hnd : l.Nodup) (hd : d ∈ l) :
    (l.map (fun h => if d = h then (1 : ℕ) else 0)).sum = 1 := by
  induction l with
  | nil => simp at hd
  | cons a t ih =>
    rcases List.nodup_cons.mp hnd with ⟨hna, hnt⟩
    by_cases he : d = a
    · subst he
      simp only [List.map_cons, List.sum_cons, if_pos rfl]
      rw [sum_map_ind_zero hna]
      simp
    · have hdt : d ∈ t := by
        rcases List.mem_cons.mp hd with h | h
        · exact absurd h he
        · exact h
      simp only [List.map_cons, List.sum_cons, he, if_false, ih hnt hdt]

theorem sum_count_nat :
    ∀ (drawn hospitals : List String), hospitals.Nodup →
      (∀ x ∈ drawn, x ∈ hospitals) →
      (hospitals.map (fun h => drawn.count h)).sum = drawn.length := by
  intro drawn
  induction drawn with
  | nil => intro hosp _ _; simp
  | cons d rest ih =>
    intro hosp hnd hsub
    have h1 : hosp.map (fun h => (d :: rest).count h)
        = hosp.map (fun h => rest.count h + if d = h then 1 else 0) := by
      apply List.map_congr_left
      intro h _
      rw [List.count_cons]
      simp [beq_iff_eq]
    rw [h1, sum_map_add_nat]
    rw [ih hosp hnd (fun x hx => hsub x (List.mem_cons_of_mem _ hx))]
    rw [sum_map_ind hnd (hsub d (List.mem_cons_self _ _))]
    simp

theorem sum_map_mul_right_q (l : List α) (f : α → ℚ) (c : ℚ) :
    (l.map (fun x => f x * c)).sum = (l.map f).sum * c := by
  induction l with
  | nil => simp
  | cons a t ih => simp only [List.map_cons, List.sum_cons, ih, add_mul]

theorem sum_map_cast_q (l : List α) (f : α → ℕ) :
    (l.map (fun x => (f x : ℚ))).sum = ((l.map f).sum : ℚ) := by
  induction l with
  | nil => simp
  | cons a t ih => simp only [List.map_cons, List.sum_cons, ih]; push_cast; ring

theorem resultVector_fst_perm (hospitals drawn : List String) (M : Nat) :
    (resultVector hospitals drawn M).map Prod.fst ~ hospitals := by
  unfold resultVector
  have h2 := (List.mergeSort_perm
    (hospitals.map (fun h => (h, ((drawn.count h : ℚ) / M) * 100)))
    (fun a b => b.2 ≤ a.2)).map Prod.fst
  have h3 : (hospitals.map (fun h => (h, ((drawn.count h : ℚ) / M) * 100))).map Prod.fst
      = hospitals := by
    rw [List.map_map]
    have hc : (Prod.fst ∘ fun h => (h, ((drawn.count h : ℚ) / M) * 100)) = id := by
      funext h
      rfl
    rw [hc, List.map_id]
  rw [h3] at h2
  exact h2

theorem resultVector_sorted (hospitals drawn : List String) (M : Nat) :
    (resultVector hospitals drawn M).Pairwise (fun a b => b.2 ≤ a.2) := by
  unfold resultVector
  have h := @List.sorted_mergeSort (String × ℚ)
    (fun a b => decide (b.2 ≤ a.2))
    (fun a b c hab hbc => by
      simp only [decide_eq_true_eq] at *
      exact le_trans hbc hab)
    (fun a b => by
      simp only [Bool.or_eq_true, decide_eq_true_eq]
      exact le_total b.2 a.2)
    (hospitals.map (fun h => (h, ((drawn.count h : ℚ) / M) * 100)))
  exact h.imp (fun hab => by simpa using hab)

theorem resultVector_zero (hospitals drawn : List String) (M : Nat) {h : String}
    (hmem : h ∈ hospitals) (hnd : h ∉ drawn) :
    (h, (0 : ℚ)) ∈ resultVector hospitals drawn M := by
  unfold resultVector
  rw [List.mem_mergeSort]
  apply List.mem_map.mpr
  refine ⟨h, hmem, ?_⟩
  rw [List.count_eq_zero_of_not_mem hnd]
  norm_num

theorem resultVector_snd_sum (hospitals drawn : List String) (M : Nat)
    (hnd : hospitals.Nodup) (hsub : ∀ x ∈ drawn, x ∈ hospitals)
    (hlen : drawn.length = M) (hpos : 0 < M) :
    ((resultVector hospitals drawn M).map Prod.snd).sum = 100 := by
  unfold resultVector
  rw [((List.mergeSort_perm _ _).map Prod.snd).sum_eq]
  rw [List.map_map]
  have h1 : (Prod.snd ∘ fun h => (h, ((drawn.count h : ℚ) / M) * 100))
      = fun h => ((drawn.count h : ℚ)) * (100 / M) := by
    funext h
    simp only [Function.comp]
    ring
  rw [h1, sum_map_mul_right_q, sum_map_cast_q,
    sum_count_nat drawn hospitals hnd hsub, hlen]
  have hM : (M : ℚ) ≠ 0 := by
    exact_mod_cast Nat.pos_iff_ne_zero.mp hpos
  field_simp

theorem resultVector_snd_sum_le (hospitals drawn : List String) (M : Nat)
    (hnd : hospitals.Nodup) (hsub : ∀ x ∈ drawn, x ∈ hospitals)
    (hlen : drawn.length ≤ M) (hpos : 0 < M) :
    ((resultVector hospitals drawn M).map Prod.snd).sum ≤ 100 := by
  unfold resultVector
  rw [((List.mergeSort_perm _ _).map Prod.snd).sum_eq]
  rw [List.map_map]
  have h1 : (Prod.snd ∘ fun h => (h, ((drawn.count h : ℚ) / M) * 100))
      = fun h => ((drawn.count h : ℚ)) * (100 / M) := by
    funext h
    simp only [Function.comp]
    ring
  rw [h1, sum_map_mul_right_q, sum_map_cast_q,
    sum_count_nat drawn hospitals hnd hsub]
  have hM : (0 : ℚ) < (M : ℚ) := by exact_mod_cast hpos
  have hq : ((drawn.length : ℚ)) ≤ (M : ℚ) := by exact_mod_cast hlen
  calc ((drawn.length : ℕ) : ℚ) * (100 / M)
      ≤ (M : ℚ) * (100 / M) := by
        apply mul_le_mul_of_nonneg_right hq
        positivity
    _ = 100 := by field_simp

/-! ### One-trial and trial-loop lemmas -/

theorem simulateSingle_assigned_mem {r : Rand} {pos : Nat} {names : List String}
    {caps : List (String × Nat)} {internPriorities : List String}
    {tc fuel : Nat} {h : String} {p pos' : Nat}
    (hsim : simulateSingleInternMatch r pos names caps internPriorities tc fuel
      = .ok ((h, p), pos')) : h ∈ internPriorities := by
  simp only [simulateSingleInternMatch] at hsim
  split at hsim
  · exact absurd hsim (by simp)
  · rename_i st hloop
    split at hsim
    · exact absurd hsim (by simp)
    · rename_i hp hfa
      have hpair := Except.ok.inj hsim
      have hhp : hp = (h, p) := congrArg Prod.fst hpair
      subst hhp
      have hinv := daLoop_heldInv (heldInv_initState _ _ _) hloop
      rcases finalAssignment_inv hfa with ⟨hl, hhl, q, hq, hp1⟩
      rcases hinv.2.1 (h, hl) hhl (0, q) hq with ⟨row, hrow, hcol⟩
      have hrow0 : row = internPriorities := by
        simp only [List.get?] at hrow
        exact (Option.some.inj hrow).symm
      subst hrow0
      exact List.get?_mem hcol

theorem runTrialsDA_spec (r : Rand) (names : List String) (caps : List (String × Nat))
    (internData : List String) (fuel : Nat) :
    ∀ (M pos : Nat) (drawn : List String) (q : Nat),
      runTrialsDA r names caps internData fuel M pos = .ok (drawn, q) →
      drawn.length = M ∧ ∀ x ∈ drawn, x ∈ internData := by
  intro M
  induction M with
  | zero =>
    intro pos drawn q h
    simp only [runTrialsDA] at h
    have := Except.ok.inj h
    have hd : drawn = [] := (congrArg Prod.fst this).symm
    subst hd
    simp
  | succ m ih =>
    intro pos drawn q h
    simp only [runTrialsDA] at h
    split at h
    · exact absurd h (by simp)
    · rename_i hp pos' hsim
      split at h
      · exact absurd h (by simp)
      · rename_i l q' hrec
        have hpair := Except.ok.inj h
        have hd : drawn = hp.1 :: l := (congrArg Prod.fst hpair).symm
        subst hd
        rcases ih pos' l q' hrec with ⟨hlen, hmem⟩
        refine ⟨by simp [hlen], ?_⟩
        intro x hx
        rcases List.mem_cons.mp hx with hx | hx
        · subst hx
          exact simulateSingle_assigned_mem (h := hp.1) (p := hp.2) (by simpa using hsim)
        · exact hmem x hx

/-! ### Termination of the matcher

Each round, every unmatched intern with an unexhausted cursor advances it by
one; an intern whose cursor is past the last column is skipped and never
returns.  The potential `phi` (total remaining cursor headroom) strictly
decreases in every round that makes a proposal, and a round without
proposals empties the unmatched set. -/

/-- Total remaining cursor headroom. -/
def phi (ctx : DACtx) (st : DAState) : Nat :=
  (st.cursors.map (fun c => ctx.nCols - c)).sum

/-- The cohort's rows all have `nCols` columns with entries among the
capacity table's hospitals. -/
def DataWF (ctx : DACtx) : Prop :=
  (∀ row ∈ ctx.data, row.length = ctx.nCols) ∧
  (∀ row ∈ ctx.data, ∀ x ∈ row, x ∈ ctx.caps.map Prod.fst)

/-- State well-formedness needed for progress. -/
structure TermWF (ctx : DACtx) (st : DAState) : Prop where
  clen : st.cursors.length = ctx.data.length
  cle : ∀ c ∈ st.cursors, c ≤ ctx.nCols
  ulen : ∀ i ∈ st.unmatched, i < ctx.data.length
  nulen : ∀ i ∈ st.newUnmatched, i < ctx.data.length
  hkeys : HeldKeys ctx st
  hids : ∀ e ∈ st.held, ∀ ip ∈ e.2, ip.1 < ctx.data.length

theorem sum_map_set (f : Nat → Nat) :
    ∀ (l : List Nat) (i : Nat) (v : Nat) (hi : i < l.length),
      ((l.set i v).map f).sum + f (l.get ⟨i, hi⟩) = (l.map f).sum + f v := by
  intro l
  induction l with
  | nil => intro i v hi; simp at hi
  | cons a t ih =>
    intro i v hi
    cases i with
    | zero => simp [List.set]; omega
    | succ j =>
      have hj : j < t.length := by simpa using hi
      have := ih j v hj
      simp only [List.set, List.map_cons, List.sum_cons, List.get_cons_succ]
      omega

theorem mem_groupPairs_of_mem_group {gs : List (Nat × List Nat)} {q : Nat}
    {g : List Nat} {j : Nat} (hg : (q, g) ∈ gs) (hj : j ∈ g) :
    (j, q) ∈ groupPairs gs := by
  unfold groupPairs
  rw [List.mem_flatten]
  refine ⟨g.map (fun i => (i, q)), ?_, List.mem_map.mpr ⟨j, hj, rfl⟩⟩
  exact List.mem_map.mpr ⟨(q, g), hg, rfl⟩

/-- One intern's action: it succeeds, preserves well-formedness, and either
leaves the state unchanged (exhausted cursor) or consumes one unit of `phi`. -/
theorem processIntern_progress {ctx : DACtx} (hdwf : DataWF ctx) {st : DAState} {i : Nat}
    (hwf : TermWF ctx st) (hi : i < ctx.data.length) :
    ∃ st', processIntern ctx st i = .ok st' ∧ TermWF ctx st' ∧
      (st' = st ∨ phi ctx st' + 1 = phi ctx st) := by
  by_cases hge : st.cursors.getD i 0 ≥ ctx.nCols
  · refine ⟨st, ?_, hwf, Or.inl rfl⟩
    unfold processIntern
    rw [if_pos hge]
  · have hilen : i < st.cursors.length := hwf.clen ▸ hi
    have hrow : ctx.data.get? i = some (ctx.data.get ⟨i, hi⟩) := List.get?_eq_get hi
    set row := ctx.data.get ⟨i, hi⟩ with hrowdef
    have hrmem : row ∈ ctx.data := List.get_mem _ _ _
    have hrlen : row.length = ctx.nCols := hdwf.1 row hrmem
    have hcollt : st.cursors.getD i 0 < row.length := by omega
    have hcol : row.get? (st.cursors.getD i 0) = some (row.get ⟨_, hcollt⟩) :=
      List.get?_eq_get hcollt
    set hosp := row.get ⟨st.cursors.getD i 0, hcollt⟩ with hhospdef
    have hhmem : hosp ∈ row := List.get_mem _ _ _
    have hcapmem : hosp ∈ ctx.caps.map Prod.fst := hdwf.2 row hrmem hosp hhmem
    have hheldmem : hosp ∈ st.held.map Prod.fst := by rw [hwf.hkeys]; exact hcapmem
    obtain ⟨holders, hold⟩ := Option.isSome_iff_exists.mp (alookup_isSome_of_mem_fst hheldmem)
    obtain ⟨cap, hcap⟩ := Option.isSome_iff_exists.mp (alookup_isSome_of_mem_fst hcapmem)
    have hcursors : ∀ c ∈ st.cursors.set i (st.cursors.getD i 0 + 1), c ≤ ctx.nCols := by
      intro c hc
      rcases List.mem_or_eq_of_mem_set hc with hc | hc
      · exact hwf.cle c hc
      · omega
    have hphi : phi ctx { st with cursors := st.cursors.set i (st.cursors.getD i 0 + 1) } + 1
        = phi ctx st := by
      unfold phi
      simp only
      have hsum := sum_map_set (fun c => ctx.nCols - c) st.cursors i
        (st.cursors.getD i 0 + 1) hilen
      have hget : st.cursors.get ⟨i, hilen⟩ = st.cursors.getD i 0 := by
        rw [List.getD_eq_getElem st.cursors 0 hilen]
        rfl
      rw [hget] at hsum
      omega
    have hbase : ∀ ip ∈ holders ++ [(i, st.cursors.getD i 0)], ip.1 < ctx.data.length := by
      intro ip hip
      rcases List.mem_append.mp hip with hm | hm
      · exact hwf.hids (hosp, holders) (alookup_mem hold) ip hm
      · have : ip = (i, st.cursors.getD i 0) := by simpa using hm
        rw [this]
        exact hi
    unfold processIntern
    rw [if_neg hge, hrow]
    dsimp only []
    rw [hcol]
    dsimp only []
    rw [hold, hcap]
    dsimp only []
    by_cases hover : (holders ++ [(i, st.cursors.getD i 0)]).length > cap
    · rw [if_pos hover]
      refine ⟨_, rfl, ?_, Or.inr ?_⟩
      · refine ⟨?_, hcursors, hwf.ulen, ?_, ?_, ?_⟩
        · simp only [List.length_set]
          exact hwf.clen
        · intro j hj
          rcases List.mem_append.mp hj with hj | hj
          · exact hwf.nulen j hj
          · rcases acceptGroups_rej_mem ctx.r _ cap st.pos j hj with ⟨qg, hqg, hjg⟩
            have hpair : (j, qg.1) ∈ groupPairs (groupByPrio
                (holders ++ [(i, st.cursors.getD i 0)])) :=
              mem_groupPairs_of_mem_group (by exact hqg) hjg
            have hmem' := (groupByPrio_flat_perm _).mem_iff.mp hpair
            exact hbase (j, qg.1) hmem'
        · unfold HeldKeys
          simp only [aset_map_fst]
          exact hwf.hkeys
        · intro e he ip hip
          rcases mem_aset _ _ _ he with hm | hm
          · exact hwf.hids e hm ip hip
          · have h2 : e.2 = (acceptGroups ctx.r cap st.pos
                (groupByPrio (holders ++ [(i, st.cursors.getD i 0)]))).1 := by rw [hm]
            rw [h2] at hip
            have hgp := acceptGroups_acc_subset ctx.r _ cap st.pos ip hip
            exact hbase ip ((groupByPrio_flat_perm _).mem_iff.mp hgp)
      · exact hphi
    · rw [if_neg hover]
      refine ⟨_, rfl, ?_, Or.inr ?_⟩
      · refine ⟨?_, hcursors, hwf.ulen, hwf.nulen, ?_, ?_⟩
        · simp only [List.length_set]
          exact hwf.clen
        · unfold HeldKeys
          simp only [aset_map_fst]
          exact hwf.hkeys
        · intro e he ip hip
          rcases mem_aset _ _ _ he with hm | hm
          · exact hwf.hids e hm ip hip
          · have h2 : e.2 = holders ++ [(i, st.cursors.getD i 0)] := by rw [hm]
            rw [h2] at hip
            exact hbase ip hip
      · exact hphi

theorem foldProcess_progress {ctx : DACtx} (hdwf : DataWF ctx) :
    ∀ (l : List Nat) (st : DAState), TermWF ctx st → (∀ i ∈ l, i < ctx.data.length) →
      ∃ st', foldProcess ctx st l = .ok st' ∧ TermWF ctx st' ∧
        (st' = st ∨ phi ctx st' < phi ctx st) := by
  intro l
  induction l with
  | nil =>
    intro st hwf _
    exact ⟨st, rfl, hwf, Or.inl rfl⟩
  | cons i rest ih =>
    intro st hwf hmem
    obtain ⟨st1, hok, hwf1, hcase1⟩ :=
      processIntern_progress hdwf hwf (hmem i (List.mem_cons_self _ _))
    obtain ⟨st', hok', hwf', hcase'⟩ :=
      ih st1 hwf1 (fun j hj => hmem j (List.mem_cons_of_mem _ hj))
    refine ⟨st', ?_, hwf', ?_⟩
    · simp only [foldProcess]
      rw [hok]
      exact hok'
    · rcases hcase1 with h1 | h1
      · rcases hcase' with h2 | h2
        · exact Or.inl (h2.trans h1)
        · exact Or.inr (h1 ▸ h2)
      · rcases hcase' with h2 | h2
        · exact Or.inr (by rw [h2]; omega)
        · exact Or.inr (by omega)

theorem unmatched_of_no_change {ctx : DACtx} :
    ∀ (l : List Nat) (st st' : DAState), st.newUnmatched = [] →
      foldProcess ctx st l = .ok st' → st' = st → st'.newUnmatched = [] := by
  intro l st st' hnu _ he
  rw [he]
  exact hnu

theorem daRound_progress {ctx : DACtx} (hdwf : DataWF ctx) (st : DAState)
    (hwf : TermWF ctx st) :
    ∃ st', daRound ctx st = .ok st' ∧ TermWF ctx st' ∧
      (phi ctx st' < phi ctx st ∨
        (st'.unmatched = [] ∧ phi ctx st' = phi ctx st)) := by
  have hperm : (shuffle ctx.r st.pos st.unmatched).1 ~ st.unmatched :=
    shuffle_perm ctx.r st.pos st.unmatched
  have hmem : ∀ i ∈ (shuffle ctx.r st.pos st.unmatched).1, i < ctx.data.length :=
    fun i hi => hwf.ulen i (hperm.mem_iff.mp hi)
  set st0 : DAState :=
    { st with pos := (shuffle ctx.r st.pos st.unmatched).2, newUnmatched := [] } with hst0
  have hwf0 : TermWF ctx st0 := by
    refine ⟨hwf.clen, hwf.cle, hwf.ulen, ?_, hwf.hkeys, hwf.hids⟩
    intro i hi
    simp [hst0] at hi
  obtain ⟨st1, hok, hwf1, hcase⟩ := foldProcess_progress hdwf _ st0 hwf0 hmem
  refine ⟨{ st1 with unmatched := st1.newUnmatched, newUnmatched := [] }, ?_, ?_, ?_⟩
  · unfold daRound
    rw [hok]
  · exact ⟨hwf1.clen, hwf1.cle, hwf1.nulen, by simp, hwf1.hkeys, hwf1.hids⟩
  · have hphi0 : phi ctx st0 = phi ctx st := rfl
    have hphi1 : phi ctx { st1 with unmatched := st1.newUnmatched, newUnmatched := [] }
        = phi ctx st1 := rfl
    rcases hcase with h | h
    · right
      constructor
      · simp only
        rw [h]
      · rw [hphi1, h, hphi0]
    · left
      rw [hphi1]
      rw [hphi0] at h
      exact h

theorem daLoop_ok {ctx : DACtx} (hdwf : DataWF ctx) :
    ∀ (fuel : Nat) (st : DAState), TermWF ctx st → 2 * phi ctx st + 2 ≤ fuel →
      ∃ st', daLoop ctx fuel st = .ok st' := by
  intro fuel
  induction fuel with
  | zero => intro st _ hle; omega
  | succ fuel ih =>
    intro st hwf hle
    by_cases hu : st.unmatched.isEmpty
    · refine ⟨st, ?_⟩
      simp only [daLoop]
      rw [if_pos hu]
    · obtain ⟨st1, hok, hwf1, hcase⟩ := daRound_progress hdwf st hwf
      rcases hcase with h | ⟨hemp, heq⟩
      · obtain ⟨st', hfin⟩ := ih st1 hwf1 (by omega)
        refine ⟨st', ?_⟩
        simp only [daLoop]
        rw [if_neg hu, hok]
        exact hfin
      · cases fuel with
        | zero => omega
        | succ fuel' =>
          refine ⟨st1, ?_⟩
          simp only [daLoop]
          rw [if_neg hu, hok]
          simp only [daLoop]
          rw [if_pos (by simp [hemp])]

theorem matchInterns_ok (r : Rand) (data : List (List String)) (nCols : Nat)
    (caps : List (String × Nat)) (pos : Nat)
    (h1 : ∀ row ∈ data, row.length = nCols)
    (h2 : ∀ row ∈ data, ∀ x ∈ row, x ∈ caps.map Prod.fst) :
    ∃ st, matchInterns r data nCols caps pos (2 * (data.length * nCols) + 2) = .ok st := by
  have hdwf : DataWF { r := r, data := data, nCols := nCols, caps := caps } := ⟨h1, h2⟩
  have hwf : TermWF { r := r, data := data, nCols := nCols, caps := caps }
      (initState data.length caps pos) := by
    refine ⟨by simp [initState], ?_, ?_, ?_, ?_, ?_⟩
    · intro c hc
      have := List.eq_of_mem_replicate hc
      omega
    · intro i hi
      simpa [initState] using List.mem_range.mp (by simpa [initState] using hi)
    · intro i hi
      simp [initState] at hi
    · unfold HeldKeys initState
      simp
    · intro e he ip hip
      rcases List.mem_map.mp he with ⟨p0, _, hp0⟩
      have : e.2 = [] := by rw [← hp0]
      rw [this] at hip
      simp at hip
  have hphi : phi { r := r, data := data, nCols := nCols, caps := caps }
      (initState data.length caps pos) = data.length * nCols := by
    unfold phi initState
    simp [List.map_replicate, List.sum_replicate, smul_eq_mul]
  obtain ⟨st, hst⟩ := daLoop_ok hdwf (2 * (data.length * nCols) + 2)
    (initState data.length caps pos) hwf (by omega)
  exact ⟨st, hst⟩

/-! ### The resolution step as invoked by the matcher -/

/-- The full over-capacity resolution of one hospital: group the holders by
proposal rank and run the acceptance loop. -/
def resolveOverCap (r : Rand) (pos cap : Nat) (holders : List (Nat × Nat)) :
    List (Nat × Nat) × List Nat × Nat :=
  acceptGroups r cap pos (groupByPrio holders)

theorem groupPairs_map_fst :
    ∀ (gs : List (Nat × List Nat)),
      (groupPairs gs).map Prod.fst = (gs.map Prod.snd).flatten := by
  intro gs
  induction gs with
  | nil => simp [groupPairs]
  | cons pg rest ih =>
    simp only [groupPairs, List.map_cons, List.flatten_cons, List.map_append] at *
    rw [ih]
    congr 1
    rw [List.map_map]
    exact List.map_id _ ▸ rfl

theorem nodup_fst_eq {l : List (Nat × Nat)} (hnd : (l.map Prod.fst).Nodup)
    {a b c : Nat} (h1 : (a, b) ∈ l) (h2 : (a, c) ∈ l) : b = c := by
  induction l with
  | nil => simp at h1
  | cons p rest ih =>
    simp only [List.map_cons, List.nodup_cons] at hnd
    obtain ⟨hna, hnr⟩ := hnd
    rcases List.mem_cons.mp h1 with h1' | h1' <;> rcases List.mem_cons.mp h2 with h2' | h2'
    · exact (Prod.ext_iff.mp (h1'.trans h2'.symm)).2
    · rw [← h1'] at hna
      exact absurd (List.mem_map.mpr ⟨(a, c), h2', rfl⟩) hna
    · rw [← h2'] at hna
      exact absurd (List.mem_map.mpr ⟨(a, b), h1', rfl⟩) hna
    · exact ih hnr h1' h2'

/-! ### Random Serial Dictatorship (src/rsd.py)

`run_single_rsd` shuffles the student indices, then each student in order
takes the first hospital on their list with remaining capacity.
`calculate_rsd_probabilities` repeats this `n_simulations` times and divides
the per-(student, hospital) assignment counts by the iteration count. -/

inductive RSDErr where
  | keyError : RSDErr
deriving Repr, DecidableEq

/-- The inner loop of `run_single_rsd`: first hospital of the student's list
with remaining capacity.  A hospital absent from the dictionary is a Python
`KeyError`. -/
def firstFit (rem : List (String × Nat)) : List String → Except RSDErr (Option String)
  | [] => .ok none
  | h :: t =>
    match alookup h rem with
    | none => .error .keyError
    | some c => if 0 < c then .ok (some h) else firstFit rem t

/-- `remaining_capacity[hospital] -= 1`. -/
def decrCap (h : String) (rem : List (String × Nat)) : List (String × Nat) :=
  rem.map (fun p => if p.1 = h then (p.1, p.2 - 1) else p)

/-- The serial pass over the shuffled students. -/
def rsdGo (prefs : List (List String)) :
    List Nat → List (String × Nat) → List (Nat × String) →
    Except RSDErr (List (Nat × String) × List (String × Nat))
  | [], rem, acc => .ok (acc, rem)
  | s :: rest, rem, acc =>
    match prefs.get? s with
    | none => .error .keyError
    | some sp =>
      match firstFit rem sp with
      | .error e => .error e
      | .ok none => rsdGo prefs rest rem acc
      | .ok (some h) => rsdGo prefs rest (decrCap h rem) (acc ++ [(s, h)])

/-- `run_single_rsd`. -/
def runSingleRSD (r : Rand) (pos : Nat) (prefs : List (List String))
    (caps : List (String × Nat)) : Except RSDErr (List (Nat × String) × Nat) :=
  match rsdGo prefs (shuffle r pos (List.range prefs.length)).1 caps [] with
  | .error e => .error e
  | .ok (a, _) => .ok (a, (shuffle r pos (List.range prefs.length)).2)

/-- The iteration loop of `calculate_rsd_probabilities`. -/
def rsdIters (r : Rand) (prefs : List (List String)) (caps : List (String × Nat)) :
    Nat → Nat → Except RSDErr (List (List (Nat × String)) × Nat)
  | 0, pos => .ok ([], pos)
  | t + 1, pos =>
    match runSingleRSD r pos prefs caps with
    | .error e => .error e
    | .ok (a, pos') =>
      match rsdIters r prefs caps t pos' with
      | .error e => .error e
      | .ok (l, q) => .ok (a :: l, q)

/-- Entry `(s, h)` of the probability matrix: assignment count over the
iterations, divided by the iteration count. -/
def rsdProb (iters : List (List (Nat × String))) (T : Nat) (s : Nat) (h : String) : ℚ :=
  ((iters.countP (fun a => (s, h) ∈ a)) : ℚ) / T

theorem firstFit_mem {rem : List (String × Nat)} :
    ∀ {sp : List String} {h : String}, firstFit rem sp = .ok (some h) → h ∈ sp := by
  intro sp
  induction sp with
  | nil => intro h hf; simp [firstFit] at hf
  | cons x t ih =>
    intro h hf
    simp only [firstFit] at hf
    cases hx : alookup x rem with
    | none => rw [hx] at hf; cases hf
    | some c =>
      rw [hx] at hf
      dsimp only [] at hf
      by_cases hc : 0 < c
      · rw [if_pos hc] at hf
        have := Except.ok.inj hf
        have hxh : x = h := Option.some.inj this
        exact hxh ▸ List.mem_cons_self _ _
      · rw [if_neg hc] at hf
        exact List.mem_cons_of_mem _ (ih hf)

theorem firstFit_pos {rem : List (String × Nat)} :
    ∀ {sp : List String} {h : String}, firstFit rem sp = .ok (some h) →
      ∃ c, alookup h rem = some c ∧ 0 < c := by
  intro sp
  induction sp with
  | nil => intro h hf; simp [firstFit] at hf
  | cons x t ih =>
    intro h hf
    simp only [firstFit] at hf
    cases hx : alookup x rem with
    | none => rw [hx] at hf; cases hf
    | some c =>
      rw [hx] at hf
      dsimp only [] at hf
      by_cases hc : 0 < c
      · rw [if_pos hc] at hf
        have := Except.ok.inj hf
        have hxh : x = h := Option.some.inj this
        exact ⟨c, hxh ▸ hx, hc⟩
      · rw [if_neg hc] at hf
        exact ih hf

theorem alookup_decrCap_ne {h h' : String} (hne : h' ≠ h) (rem : List (String × Nat)) :
    alookup h (decrCap h' rem) = alookup h rem := by
  induction rem with
  | nil => rfl
  | cons p t ih =>
    obtain ⟨k, v⟩ := p
    by_cases hp : k = h'
    · subst hp
      simp only [decrCap, List.map_cons, if_pos rfl] at *
      simp only [alookup, if_neg hne]
      exact ih
    · simp only [decrCap, List.map_cons, if_neg hp] at *
      by_cases hph : k = h
      · simp [alookup, hph]
      · simp only [alookup, if_neg hph]
        exact ih

theorem alookup_decrCap_eq {h : String} {c : Nat} {rem : List (String × Nat)}
    (hc : alookup h rem = some c) : alookup h (decrCap h rem) = some (c - 1) := by
  induction rem with
  | nil => simp [alookup] at hc
  | cons p t ih =>
    obtain ⟨k, v⟩ := p
    by_cases hp : k = h
    · subst hp
      simp [alookup] at hc
      subst hc
      simp only [decrCap, List.map_cons, if_pos rfl]
      simp [alookup]
    · simp only [alookup, if_neg hp] at hc
      simp only [decrCap, List.map_cons, if_neg hp]
      simp only [alookup, if_neg hp]
      simpa [decrCap] using ih hc

theorem rsdGo_acc_sub {prefs : List (List String)} :
    ∀ {order : List Nat} {rem : List (String × Nat)} {acc a : List (Nat × String)}
      {rem' : List (String × Nat)},
      rsdGo prefs order rem acc = .ok (a, rem') → ∀ x ∈ acc, x ∈ a := by
  intro order
  induction order with
  | nil =>
    intro rem acc a rem' h x hx
    simp only [rsdGo] at h
    have := Except.ok.inj h
    have ha : acc = a := congrArg Prod.fst this
    exact ha ▸ hx
  | cons s rest ih =>
    intro rem acc a rem' h x hx
    simp only [rsdGo] at h
    cases hsp : prefs.get? s with
    | none => rw [hsp] at h; cases h
    | some sp =>
      rw [hsp] at h
      dsimp only [] at h
      cases hff : firstFit rem sp with
      | error e => rw [hff] at h; cases h
      | ok o =>
        rw [hff] at h
        cases o with
        | none => exact ih h x hx
        | some hosp => exact ih h x (List.mem_append.mpr (Or.inl hx))

theorem rsdGo_pair {prefs : List (List String)} :
    ∀ {order : List Nat} {rem : List (String × Nat)} {acc a : List (Nat × String)}
      {rem' : List (String × Nat)},
      rsdGo prefs order rem acc = .ok (a, rem') →
      ∀ p ∈ a, p ∈ acc ∨ ∃ sp, prefs.get? p.1 = some sp ∧ p.2 ∈ sp := by
  intro order
  induction order with
  | nil =>
    intro rem acc a rem' h p hp
    simp only [rsdGo] at h
    have := Except.ok.inj h
    have ha : acc = a := congrArg Prod.fst this
    exact Or.inl (ha ▸ hp)
  | cons s rest ih =>
    intro rem acc a rem' h p hp
    simp only [rsdGo] at h
    cases hsp : prefs.get? s with
    | none => rw [hsp] at h; cases h
    | some sp =>
      rw [hsp] at h
      dsimp only [] at h
      cases hff : firstFit rem sp with
      | error e => rw [hff] at h; cases h
      | ok o =>
        rw [hff] at h
        cases o with
        | none => exact ih h p hp
        | some hosp =>
          rcases ih h p hp with hm | hm
          · rcases List.mem_append.mp hm with hm | hm
            · exact Or.inl hm
            · have hps : p = (s, hosp) := by simpa using hm
              refine Or.inr ⟨sp, ?_, ?_⟩
              · rw [hps]
                exact hsp
              · rw [hps]
                exact firstFit_mem hff
          · exact Or.inr hm

theorem rsdGo_fst_nodup {prefs : List (List String)} :
    ∀ {order : List Nat} {rem : List (String × Nat)} {acc a : List (Nat × String)}
      {rem' : List (String × Nat)},
      rsdGo prefs order rem acc = .ok (a, rem') →
      order.Nodup → (acc.map Prod.fst).Nodup →
      (∀ x ∈ acc.map Prod.fst, x ∉ order) → (a.map Prod.fst).Nodup := by
  intro order
  induction order with
  | nil =>
    intro rem acc a rem' h _ hacc _
    simp only [rsdGo] at h
    have := Except.ok.inj h
    have ha : acc = a := congrArg Prod.fst this
    exact ha ▸ hacc
  | cons s rest ih =>
    intro rem acc a rem' h hord hacc hdisj
    rcases List.nodup_cons.mp hord with ⟨hs, hrest⟩
    simp only [rsdGo] at h
    cases hsp : prefs.get? s with
    | none => rw [hsp] at h; cases h
    | some sp =>
      rw [hsp] at h
      dsimp only [] at h
      cases hff : firstFit rem sp with
      | error e => rw [hff] at h; cases h
      | ok o =>
        rw [hff] at h
        cases o with
        | none =>
          exact ih h hrest hacc (fun x hx => fun hmem =>
            hdisj x hx (List.mem_cons_of_mem _ hmem))
        | some hosp =>
          refine ih h hrest ?_ ?_
          · rw [List.map_append]
            simp only [List.map_cons, List.map_nil]
            rw [List.nodup_append]
            refine ⟨hacc, List.nodup_singleton s, ?_⟩
            intro x hx
            simp only [List.mem_singleton]
            intro he
            exact hdisj x hx (he ▸ List.mem_cons_self _ _)
          · intro x hx
            rw [List.map_append] at hx
            rcases List.mem_append.mp hx with hx | hx
            · exact fun hmem => hdisj x hx (List.mem_cons_of_mem _ hmem)
            · have hxs : x = s := by simpa using hx
              exact hxs ▸ hs

theorem rsdGo_col {prefs : List (List String)} (h : String) :
    ∀ (order : List Nat) (rem : List (String × Nat)) (acc a : List (Nat × String))
      (rem' : List (String × Nat)) (c : Nat),
      rsdGo prefs order rem acc = .ok (a, rem') →
      alookup h rem = some c →
      a.countP (fun p => p.2 = h) ≤ acc.countP (fun p => p.2 = h) + c := by
  intro order
  induction order with
  | nil =>
    intro rem acc a rem' c hgo hc
    simp only [rsdGo] at hgo
    have := Except.ok.inj hgo
    have ha : acc = a := congrArg Prod.fst this
    subst ha
    omega
  | cons s rest ih =>
    intro rem acc a rem' c hgo hc
    simp only [rsdGo] at hgo
    cases hsp : prefs.get? s with
    | none => rw [hsp] at hgo; cases hgo
    | some sp =>
      rw [hsp] at hgo
      dsimp only [] at hgo
      cases hff : firstFit rem sp with
      | error e => rw [hff] at hgo; cases hgo
      | ok o =>
        rw [hff] at hgo
        cases o with
        | none => exact ih rem acc a rem' c hgo hc
        | some hosp =>
          by_cases hh : hosp = h
          · subst hh
            rcases firstFit_pos hff with ⟨c0, hc0, hpos⟩
            rw [hc] at hc0
            have hcc : c = c0 := Option.some.inj hc0
            subst hcc
            have hdec : alookup hosp (decrCap hosp rem) = some (c - 1) :=
              alookup_decrCap_eq hc
            have := ih (decrCap hosp rem) (acc ++ [(s, hosp)]) a rem' (c - 1)
              hgo hdec
            have hcount : (acc ++ [(s, hosp)]).countP (fun p => p.2 = hosp)
                = acc.countP (fun p => p.2 = hosp) + 1 := by
              rw [List.countP_append]
              simp
            omega
          · have hdec : alookup h (decrCap hosp rem) = alookup h rem :=
              alookup_decrCap_ne hh rem
            have := ih (decrCap hosp rem) (acc ++ [(s, hosp)]) a rem' c
              hgo (hdec.trans hc)
            have hcount : (acc ++ [(s, hosp)]).countP (fun p => p.2 = h)
                = acc.countP (fun p => p.2 = h) := by
              rw [List.countP_append]
              simp [hh]
            omega

theorem rsdGo_miss {prefs : List (List String)} :
    ∀ {order : List Nat} {rem : List (String × Nat)} {acc a : List (Nat × String)}
      {rem' : List (String × Nat)},
      rsdGo prefs order rem acc = .ok (a, rem') →
      ∀ s ∈ order, s ∉ a.map Prod.fst →
      ∃ sp rem0, prefs.get? s = some sp ∧ firstFit rem0 sp = .ok none := by
  intro order
  induction order with
  | nil => intro rem acc a rem' _ s hs; simp at hs
  | cons x rest ih =>
    intro rem acc a rem' hgo s hs hna
    simp only [rsdGo] at hgo
    cases hsp : prefs.get? x with
    | none => rw [hsp] at hgo; cases hgo
    | some sp =>
      rw [hsp] at hgo
      dsimp only [] at hgo
      cases hff : firstFit rem sp with
      | error e => rw [hff] at hgo; cases hgo
      | ok o =>
        rw [hff] at hgo
        rcases List.mem_cons.mp hs with hsx | hsx
        · subst hsx
          cases o with
          | none => exact ⟨sp, rem, hsp, hff⟩
          | some hosp =>
            have hmem : (s, hosp) ∈ a :=
              rsdGo_acc_sub hgo (s, hosp) (List.mem_append.mpr (Or.inr (by simp)))
            exact absurd (List.mem_map.mpr ⟨(s, hosp), hmem, rfl⟩) hna
        · cases o with
          | none => exact ih hgo s hsx hna
          | some hosp => exact ih hgo s hsx hna

theorem runSingleRSD_props {r : Rand} {pos : Nat} {prefs : List (List String)}
    {caps : List (String × Nat)} {a : List (Nat × String)} {pos' : Nat}
    (h : runSingleRSD r pos prefs caps = .ok (a, pos')) :
    (a.map Prod.fst).Nodup ∧
    (∀ h0 c, alookup h0 caps = some c → a.countP (fun p => p.2 = h0) ≤ c) ∧
    (∀ s, s < prefs.length → s ∉ a.map Prod.fst →
      ∃ sp rem0, prefs.get? s = some sp ∧ firstFit rem0 sp = .ok none) ∧
    (∀ p ∈ a, ∃ sp, prefs.get? p.1 = some sp ∧ p.2 ∈ sp) := by
  unfold runSingleRSD at h
  cases hgo : rsdGo prefs (shuffle r pos (List.range prefs.length)).1 caps [] with
  | error e => rw [hgo] at h; cases h
  | ok res =>
    rw [hgo] at h
    obtain ⟨a0, rem'⟩ := res
    dsimp only [] at h
    have ha0 : a0 = a := congrArg Prod.fst (Except.ok.inj h)
    subst ha0
    have hperm : (shuffle r pos (List.range prefs.length)).1 ~ List.range prefs.length :=
      shuffle_perm r pos (List.range prefs.length)
    have hordnd : (shuffle r pos (List.range prefs.length)).1.Nodup :=
      hperm.nodup_iff.mpr (List.nodup_range _)
    refine ⟨?_, ?_, ?_, ?_⟩
    · exact rsdGo_fst_nodup hgo hordnd (by simp) (by simp)
    · intro h0 c hc
      have := rsdGo_col h0 _ caps [] a0 rem' c hgo hc
      simpa using this
    · intro s hs hna
      have hin : s ∈ (shuffle r pos (List.range prefs.length)).1 :=
        hperm.mem_iff.mpr (List.mem_range.mpr hs)
      exact rsdGo_miss hgo s hin hna
    · intro p hp
      rcases rsdGo_pair hgo p hp with hm | hm
      · simp at hm
      · exact hm

theorem rsdIters_spec (r : Rand) (prefs : List (List String)) (caps : List (String × Nat)) :
    ∀ (T pos : Nat) (iters : List (List (Nat × String))) (q : Nat),
      rsdIters r prefs caps T pos = .ok (iters, q) →
      iters.length = T ∧
        ∀ a ∈ iters, ∃ p0 p1, runSingleRSD r p0 prefs caps = .ok (a, p1) := by
  intro T
  induction T with
  | zero =>
    intro pos iters q h
    simp only [rsdIters] at h
    have hi : iters = [] := (congrArg Prod.fst (Except.ok.inj h)).symm
    subst hi
    simp
  | succ t ih =>
    intro pos iters q h
    simp only [rsdIters] at h
    split at h
    · exact absurd h (by simp)
    · rename_i a pos' hone
      split at h
      · exact absurd h (by simp)
      · rename_i l q' hrec
        have hi : iters = a :: l := (congrArg Prod.fst (Except.ok.inj h)).symm
        subst hi
        rcases ih pos' l q' hrec with ⟨hlen, hall⟩
        refine ⟨by simp [hlen], ?_⟩
        intro b hb
        rcases List.mem_cons.mp hb with hb | hb
        · exact ⟨pos, pos', hb ▸ hone⟩
        · exact hall b hb

/-! ### Counting toolkit for the probability matrix -/

theorem countP_eq_sum_ind (l : List α) (p : α → Prop) [DecidablePred p] :
    l.countP (fun x => p x) = (l.map (fun x => if p x then (1 : ℕ) else 0)).sum := by
  induction l with
  | nil => simp
  | cons a t ih =>
    rw [List.countP_cons]
    simp only [List.map_cons, List.sum_cons, ih]
    by_cases hp : p a
    · simp [hp]
      omega
    · simp [hp]

theorem sum_ind_eq_filter_length (l : List α) (p : α → Prop) [DecidablePred p] :
    (l.map (fun x => if p x then (1 : ℕ) else 0)).sum
      = (l.filter (fun x => p x)).length := by
  induction l with
  | nil => simp
  | cons a t ih =>
    simp only [List.map_cons, List.sum_cons, List.filter_cons]
    by_cases hp : p a
    · simp [hp, ih]
      omega
    · simp [hp, ih]

theorem sum_map_sum_comm (l1 : List α) (l2 : List β) (f : α → β → ℕ) :
    (l1.map (fun x => (l2.map (fun y => f x y)).sum)).sum
      = (l2.map (fun y => (l1.map (fun x => f x y)).sum)).sum := by
  induction l1 with
  | nil => simp
  | cons a t ih =>
    simp only [List.map_cons, List.sum_cons, ih, ← sum_map_add_nat]

theorem sum_div_q (l : List α) (f : α → ℕ) (T : Nat) :
    (l.map (fun x => ((f x : ℚ)) / T)).sum = (((l.map f).sum : ℕ) : ℚ) / T := by
  have h1 : (fun x => ((f x : ℚ)) / T) = fun x => ((f x : ℚ)) * (1 / T) := by
    funext x
    ring
  rw [h1, sum_map_mul_right_q, sum_map_cast_q]
  ring

theorem range_filter_inj_le {K : Nat} {h : String} {a : List (Nat × String)} :
    ((List.range K).filter (fun s => (s, h) ∈ a)).length
      ≤ a.countP (fun p => p.2 = h) := by
  have hnd : ((List.range K).filter (fun s => (s, h) ∈ a)).Nodup :=
    (List.nodup_range K).filter _
  have hmap : (((List.range K).filter (fun s => (s, h) ∈ a)).map
      (fun s => (s, h))).Nodup := by
    apply List.Nodup.map
    · intro x y hxy
      exact congrArg Prod.fst hxy
    · exact hnd
  have hsub : ∀ p ∈ ((List.range K).filter (fun s => (s, h) ∈ a)).map (fun s => (s, h)),
      p ∈ a.filter (fun p => p.2 = h) := by
    intro p hp
    rcases List.mem_map.mp hp with ⟨s, hs, he⟩
    have hmem := (List.mem_filter.mp hs).2
    simp only [decide_eq_true_eq] at hmem
    rw [List.mem_filter]
    constructor
    · exact he ▸ hmem
    · simp [← he]
  have hle := (List.subperm_of_subset hmap hsub).length_le
  rw [List.length_map] at hle
  rw [List.countP_eq_length_filter]
  exact hle

theorem names_filter_inj_le {names : List String} (hnd : names.Nodup)
    {a : List (Nat × String)} {s : Nat} :
    (names.filter (fun h => (s, h) ∈ a)).length ≤ a.countP (fun p => p.1 = s) := by
  have hndf : (names.filter (fun h => (s, h) ∈ a)).Nodup := hnd.filter _
  have hmap : ((names.filter (fun h => (s, h) ∈ a)).map (fun h => (s, h))).Nodup := by
    apply List.Nodup.map
    · intro x y hxy
      exact congrArg Prod.snd hxy
    · exact hndf
  have hsub : ∀ p ∈ (names.filter (fun h => (s, h) ∈ a)).map (fun h => (s, h)),
      p ∈ a.filter (fun p => p.1 = s) := by
    intro p hp
    rcases List.mem_map.mp hp with ⟨h, hh, he⟩
    have hmem := (List.mem_filter.mp hh).2
    simp only [decide_eq_true_eq] at hmem
    rw [List.mem_filter]
    constructor
    · exact he ▸ hmem
    · simp [← he]
  have hle := (List.subperm_of_subset hmap hsub).length_le
  rw [List.length_map] at hle
  rw [List.countP_eq_length_filter]
  exact hle

theorem countP_fst_le_one {a : List (Nat × String)} (hfst : (a.map Prod.fst).Nodup)
    (s : Nat) : a.countP (fun p => p.1 = s) ≤ 1 := by
  induction a with
  | nil => simp
  | cons p t ih =>
    simp only [List.map_cons, List.nodup_cons] at hfst
    obtain ⟨hna, hnt⟩ := hfst
    rw [List.countP_cons]
    by_cases hp : p.1 = s
    · have hzero : t.countP (fun q => q.1 = s) = 0 := by
        rw [List.countP_eq_length_filter]
        rw [List.length_eq_zero]
        rw [List.filter_eq_nil_iff]
        intro q hq
        simp only [decide_eq_true_eq]
        intro he
        exact hna (List.mem_map.mpr ⟨q, hq, by rw [he, hp]⟩)
      simp [hp, hzero]
    · have := ih hnt
      simp only [hp, decide_False]
      simpa using this

theorem sum_map_le_nat (l : List α) (f g : α → ℕ) (h : ∀ x ∈ l, f x ≤ g x) :
    (l.map f).sum ≤ (l.map g).sum := by
  induction l with
  | nil => simp
  | cons a t ih =>
    simp only [List.map_cons, List.sum_cons]
    have h1 := h a (List.mem_cons_self _ _)
    have h2 := ih (fun x hx => h x (List.mem_cons_of_mem _ hx))
    omega

theorem sum_map_const_nat (l : List α) (c : ℕ) :
    (l.map (fun _ => c)).sum = l.length * c := by
  induction l with
  | nil => simp
  | cons a t ih =>
    simp only [List.map_cons, List.sum_cons, List.length_cons, ih]
    ring

theorem sum_map_ge_len (l : List α) (f : α → ℕ) (h : ∀ x ∈ l, 1 ≤ f x) :
    l.length ≤ (l.map f).sum := by
  induction l with
  | nil => simp
  | cons a t ih =>
    simp only [List.map_cons, List.sum_cons, List.length_cons]
    have h1 := h a (List.mem_cons_self _ _)
    have h2 := ih (fun x hx => h x (List.mem_cons_of_mem _ hx))
    omega

/-- Entries of the RSD probability matrix lie in `[0, 1]`. -/
theorem rsdProb_mem_unit {iters : List (List (Nat × String))} {T : Nat}
    (hlen : iters.length = T) (hT : 0 < T) (s : Nat) (h : String) :
    0 ≤ rsdProb iters T s h ∧ rsdProb iters T s h ≤ 1 := by
  unfold rsdProb
  have hTq : (0 : ℚ) < (T : ℚ) := by exact_mod_cast hT
  constructor
  · positivity
  · rw [div_le_one hTq]
    have hle : iters.countP (fun a => (s, h) ∈ a) ≤ T := hlen ▸ List.countP_le_length _
    exact_mod_cast hle

/-- Row sums of the RSD probability matrix are at most 1. -/
theorem rsd_row_sum_le_one {names : List String} (hnd : names.Nodup)
    {iters : List (List (Nat × String))} {T : Nat}
    (hlen : iters.length = T) (hT : 0 < T)
    (hfst : ∀ a ∈ iters, (a.map Prod.fst).Nodup) (s : Nat) :
    (names.map (fun h => rsdProb iters T s h)).sum ≤ 1 := by
  unfold rsdProb
  rw [sum_div_q]
  have hTq : (0 : ℚ) < (T : ℚ) := by exact_mod_cast hT
  rw [div_le_one hTq]
  have hnat : (names.map (fun h => iters.countP (fun a => (s, h) ∈ a))).sum ≤ T := by
    have h1 : (names.map (fun h => iters.countP (fun a => (s, h) ∈ a))).sum
        = (names.map (fun h =>
            (iters.map (fun a => if (s, h) ∈ a then (1 : ℕ) else 0)).sum)).sum := by
      apply congrArg
      apply List.map_congr_left
      intro h _
      exact countP_eq_sum_ind iters _
    rw [h1, sum_map_sum_comm]
    have h2 : ∀ a ∈ iters,
        (names.map (fun h => if (s, h) ∈ a then (1 : ℕ) else 0)).sum ≤ 1 := by
      intro a ha
      rw [sum_ind_eq_filter_length]
      exact le_trans (names_filter_inj_le hnd) (countP_fst_le_one (hfst a ha) s)
    calc (iters.map (fun a =>
          (names.map (fun h => if (s, h) ∈ a then (1 : ℕ) else 0)).sum)).sum
        ≤ (iters.map (fun _ => 1)).sum := sum_map_le_nat _ _ _ h2
      _ = iters.length * 1 := sum_map_const_nat _ _
      _ = T := by omega
  exact_mod_cast hnat

/-- Column sums of the RSD probability matrix are at most the capacity. -/
theorem rsd_col_sum_le_cap {K : Nat} {h : String} {c : Nat}
    {iters : List (List (Nat × String))} {T : Nat}
    (hlen : iters.length = T) (hT : 0 < T)
    (hcol : ∀ a ∈ iters, a.countP (fun p => p.2 = h) ≤ c) :
    ((List.range K).map (fun s => rsdProb iters T s h)).sum ≤ c := by
  unfold rsdProb
  rw [sum_div_q]
  have hTq : (0 : ℚ) < (T : ℚ) := by exact_mod_cast hT
  rw [div_le_iff₀ hTq]
  have hnat : ((List.range K).map (fun s => iters.countP (fun a => (s, h) ∈ a))).sum
      ≤ c * T := by
    have h1 : ((List.range K).map (fun s => iters.countP (fun a => (s, h) ∈ a))).sum
        = ((List.range K).map (fun s =>
            (iters.map (fun a => if (s, h) ∈ a then (1 : ℕ) else 0)).sum)).sum := by
      apply congrArg
      apply List.map_congr_left
      intro s _
      exact countP_eq_sum_ind iters _
    rw [h1, sum_map_sum_comm]
    have h2 : ∀ a ∈ iters,
        ((List.range K).map (fun s => if (s, h) ∈ a then (1 : ℕ) else 0)).sum ≤ c := by
      intro a ha
      rw [sum_ind_eq_filter_length]
      exact le_trans range_filter_inj_le (hcol a ha)
    calc (iters.map (fun a =>
          ((List.range K).map (fun s => if (s, h) ∈ a then (1 : ℕ) else 0)).sum)).sum
        ≤ (iters.map (fun _ => c)).sum := sum_map_le_nat _ _ _ h2
      _ = iters.length * c := sum_map_const_nat _ _
      _ = c * T := by rw [hlen]; ring
  have : ((((List.range K).map (fun s => iters.countP (fun a => (s, h) ∈ a))).sum : ℕ) : ℚ)
      ≤ ((c * T : ℕ) : ℚ) := by exact_mod_cast hnat
  calc ((((List.range K).map (fun s => iters.countP (fun a => (s, h) ∈ a))).sum : ℕ) : ℚ)
      ≤ ((c * T : ℕ) : ℚ) := this
    _ = (c : ℚ) * (T : ℚ) := by push_cast; ring

/-- A row summing to strictly less than 1 forces an iteration in which the
student received no assignment. -/
theorem rsd_row_missing {names : List String}
    {iters : List (List (Nat × String))} {T s : Nat}
    (hlen : iters.length = T) (hT : 0 < T)
    (hmemnames : ∀ a ∈ iters, ∀ p ∈ a, p.1 = s → p.2 ∈ names)
    (hlt : (names.map (fun h => rsdProb iters T s h)).sum < 1) :
    ∃ a ∈ iters, s ∉ a.map Prod.fst := by
  by_contra hall
  push_neg at hall
  have hone : ∀ a ∈ iters,
      1 ≤ (names.map (fun h => if (s, h) ∈ a then (1 : ℕ) else 0)).sum := by
    intro a ha
    rcases List.mem_map.mp (hall a ha) with ⟨p, hp, hps⟩
    have hmem : p.2 ∈ names := hmemnames a ha p hp hps
    have hpa : (s, p.2) ∈ a := by
      have : p = (s, p.2) := by
        rw [← hps]
      rw [← this]
      exact hp
    have : (if (s, p.2) ∈ a then (1 : ℕ) else 0)
        ∈ names.map (fun h => if (s, h) ∈ a then (1 : ℕ) else 0) :=
      List.mem_map.mpr ⟨p.2, hmem, rfl⟩
    calc (1 : ℕ) = (if (s, p.2) ∈ a then (1 : ℕ) else 0) := by rw [if_pos hpa]
      _ ≤ _ := List.single_le_sum (by intro x hx; omega) _ this
  have hge : T ≤ (names.map (fun h => iters.countP (fun a => (s, h) ∈ a))).sum := by
    have h1 : (names.map (fun h => iters.countP (fun a => (s, h) ∈ a))).sum
        = (iters.map (fun a =>
            (names.map (fun h => if (s, h) ∈ a then (1 : ℕ) else 0)).sum)).sum := by
      rw [← sum_map_sum_comm]
      apply congrArg
      apply List.map_congr_left
      intro h _
      exact countP_eq_sum_ind iters _
    rw [h1, ← hlen]
    exact sum_map_ge_len _ _ hone
  rw [show (fun h => rsdProb iters T s h)
      = fun h => ((iters.countP (fun a => (s, h) ∈ a) : ℚ)) / T from rfl] at hlt
  rw [sum_div_q] at hlt
  have hTq : (0 : ℚ) < (T : ℚ) := by exact_mod_cast hT
  rw [div_lt_one hTq] at hlt
  have hcast : ((T : ℚ))
      ≤ (((names.map (fun h => iters.countP (fun a => (s, h) ∈ a))).sum : ℕ) : ℚ) := by
    exact_mod_cast hge
  linarith

/-! ### Probability trading (src/probability_trading.py)

`trade_probabilities` builds a linear program over variables `x[c, s]` and
hands it to an external LP solver (`prob.solve()`), raising
`ValueError("Optimization failed to find a solution")` unless the reported
status is optimal (`1`).  The solver is an external library; it is modelled
as an oracle returning a status and an assignment, and a solver that
reports status 1 returns a point satisfying exactly the constraints the
code constructed (variable bounds, individual rationality, row
stochasticity, capacity). -/

/-- Squared-rank utility of one student's row: the code's
`sum(probs[h] * (n_hospitals - rank)**2 for rank, h in enumerate(prefs))`,
with Python integer arithmetic embedded in `Int`. -/
def happiness (N : Nat) (studentPrefs : List String) (row : String → ℚ) : ℚ :=
  (studentPrefs.enum.map
    (fun rh => row rh.2 * ((((N : ℤ) - (rh.1 : ℤ)) ^ 2 : ℤ) : ℚ))).sum

/-- The constraint set of the LP built by `trade_probabilities`
(src/probability_trading.py lines 51-82). -/
def lpFeasible (students : List Nat) (prefs : Nat → List String)
    (caps : List (String × Nat)) (p0 : Nat → String → ℚ)
    (x : Nat → String → ℚ) : Prop :=
  (∀ s ∈ students, ∀ hc ∈ caps, 0 ≤ x s hc.1 ∧ x s hc.1 ≤ 1) ∧
  (∀ s ∈ students,
    happiness caps.length (prefs s) (x s) ≥ happiness caps.length (prefs s) (p0 s)) ∧
  (∀ s ∈ students, (caps.map (fun hc => x s hc.1)).sum = 1) ∧
  (∀ hc ∈ caps, (students.map (fun s => x s hc.1)).sum ≤ (hc.2 : ℚ))

/-- `trade_probabilities`: hard error unless the solver status is optimal
(`prob.status != 1`), otherwise the solution values are read back. -/
def trade_probabilities (solverStatus : Int) (solverSol : Nat → String → ℚ) :
    Except String (Nat → String → ℚ) :=
  if solverStatus ≠ 1 then .error "Optimization failed to find a solution"
  else .ok solverSol

/-! ### The claims -/

/-- Number of interns to which the matcher output assigns hospital `h`. -/
def assignedCount (st : DAState) (K : Nat) (h : String) : Nat :=
  ((List.range K).filter
    (fun i => (finalAssignment st i).map Prod.fst = some h)).length

/-- C1: for every cohort whose preference entries are hospitals of the
capacity table and every capacity map (capacities are non-negative by the
`Nat` embedding), the assignment returned by `match_interns_to_hospitals`
assigns to each hospital `h` at most `cap h` interns. -/
theorem da_capacity_respected
    (r : Rand) (data : List (List String)) (nCols : Nat) (caps : List (String × Nat))
    (pos fuel : Nat) (st : DAState)
    (hnd : (caps.map Prod.fst).Nodup)
    (_hmem : ∀ row ∈ data, ∀ x ∈ row, x ∈ caps.map Prod.fst)
    (hrun : matchInterns r data nCols caps pos fuel = .ok st)
    (h : String) (cap : Nat) (hcap : alookup h caps = some cap) :
    assignedCount st data.length h ≤ cap := by
  have hinv : HeldInv { r := r, data := data, nCols := nCols, caps := caps } st :=
    daLoop_heldInv (heldInv_initState _ data.length pos) hrun
  have hkeys : st.held.map Prod.fst = caps.map Prod.fst := hinv.2.2
  have hhmem : h ∈ st.held.map Prod.fst := by
    rw [hkeys]
    exact List.mem_map.mpr ⟨(h, cap), alookup_mem hcap, rfl⟩
  obtain ⟨hl, hhl⟩ := Option.isSome_iff_exists.mp (alookup_isSome_of_mem_fst hhmem)
  have hlmem : (h, hl) ∈ st.held := alookup_mem hhl
  have hndheld : (st.held.map Prod.fst).Nodup := by rw [hkeys]; exact hnd
  have hsub : ∀ i ∈ (List.range data.length).filter
      (fun i => (finalAssignment st i).map Prod.fst = some h),
      i ∈ hl.map Prod.fst := by
    intro i hi
    have hfa := (List.mem_filter.mp hi).2
    simp only [decide_eq_true_eq] at hfa
    cases hres : finalAssignment st i with
    | none => rw [hres] at hfa; cases hfa
    | some hp =>
      rw [hres] at hfa
      simp only [Option.map_some'] at hfa
      have hh1 : hp.1 = h := Option.some.inj hfa
      have hpe : hp = (h, hp.2) := by rw [← hh1]
      rw [hpe] at hres
      obtain ⟨hl', hhl', q, hq, _⟩ := finalAssignment_inv hres
      have heq : hl' = hl := by
        have e1 := alookup_eq_of_mem_of_nodup hhl' hndheld
        rw [hhl] at e1
        exact (Option.some.inj e1).symm
      rw [heq] at hq
      exact List.mem_map.mpr ⟨(i, q), hq, rfl⟩
  have hfnd : ((List.range data.length).filter
      (fun i => (finalAssignment st i).map Prod.fst = some h)).Nodup :=
    (List.nodup_range _).filter _
  have hle := (List.subperm_of_subset hfnd hsub).length_le
  calc assignedCount st data.length h
      ≤ (hl.map Prod.fst).length := hle
    _ = hl.length := List.length_map _ _
    _ ≤ cap := hinv.1 (h, hl) hlmem cap hcap

/-- The matcher state of the C1 witness run. -/
def wSt1 : DAState :=
  (matchInterns (fun _ => 0) [["A", "B"], ["A", "B"], ["A", "B"]] 2
    [("A", 2), ("B", 1)] 0 10).toOption.getD (initState 0 [] 0)

theorem da_capacity_respected_witness :
    ((([("A", 2), ("B", 1)] : List (String × Nat)).map Prod.fst).Nodup ∧
      (∀ row ∈ [["A", "B"], ["A", "B"], ["A", "B"]], ∀ x ∈ row,
        x ∈ ([("A", 2), ("B", 1)] : List (String × Nat)).map Prod.fst) ∧
      matchInterns (fun _ => 0) [["A", "B"], ["A", "B"], ["A", "B"]] 2
        [("A", 2), ("B", 1)] 0 10 = .ok wSt1 ∧
      alookup "A" [("A", 2), ("B", 1)] = some 2) ∧
    assignedCount wSt1 3 "A" ≤ 2 :=
  ⟨⟨by decide, by decide, by rfl, by rfl⟩,
    da_capacity_respected (fun _ => 0) [["A", "B"], ["A", "B"], ["A", "B"]] 2
      [("A", 2), ("B", 1)] 0 10 wSt1 (by decide) (by decide) (by rfl) "A" 2 (by rfl)⟩

/-- C2 counterexample: with 2 hospitals and 1 rank column (the claim's
`R < N` regime), `generate_interns_data` raises at its final
`pd.DataFrame(all_priorities, columns=priority_cols)` — every built row
has length 2 against 1 column label — so no preference list is produced
at all, refuting the claim for `R ≠ N`. -/
theorem sampler_permutation_counterexample :
    1 ≤ (["A", "B"] : List String).length ∧ (1 : Nat) ≤ 1 ∧
    (1 : Nat) < (["A", "B"] : List String).length ∧
    generateInternsFrame (fun _ => 0) ["A", "B"] 1 1 0
      = .error "columns passed, passed data had a different number of columns" :=
  ⟨by decide, by decide, by decide, by rfl⟩

/-- C2 amended: for a priority table with at least one hospital and one
rank column, every row built by the sampling loops of
`generate_interns_data` is a permutation of all hospital names — full
length, no repetition, covering every hospital, whether the rank loop
stops early (`R > N`) or the drain loop appends the remainder (`R < N`) —
but the function's final DataFrame packaging, whose column labels are the
`R` rank columns, raises whenever `R` differs from the hospital count, so
`generate_interns_data` returns its rows exactly when `R = N`. -/
theorem sampler_permutation_amended
    (r : Rand) (names : List String) (R n pos : Nat)
    (_hN : 1 ≤ names.length) (_hR : 1 ≤ R) :
    (∀ prefs ∈ (generateInternsData r names R n pos).1,
      prefs ~ names ∧ prefs.length = names.length ∧
        (names.Nodup → prefs.Nodup) ∧ (∀ h ∈ names, h ∈ prefs)) ∧
    (R = names.length →
      generateInternsFrame r names R n pos = .ok (generateInternsData r names R n pos)) ∧
    (R ≠ names.length → 1 ≤ n →
      (generateInternsFrame r names R n pos).isOk = false) := by
  have hrow : ∀ prefs ∈ (generateInternsData r names R n pos).1, prefs ~ names :=
    generateInternsData_mem r names R n pos
  refine ⟨?_, ?_, ?_⟩
  · intro prefs hmem
    have hp := hrow prefs hmem
    exact ⟨hp, hp.length_eq, fun hnd => hp.nodup_iff.mpr hnd,
      fun h hh => hp.mem_iff.mpr hh⟩
  · intro hRN
    have hcond : (generateInternsData r names R n pos).1.all
        (fun row => row.length = R) = true := by
      rw [List.all_eq_true]
      intro row hmem
      simp only [decide_eq_true_eq]
      rw [(hrow row hmem).length_eq, hRN]
    unfold generateInternsFrame
    rw [if_pos hcond]
  · intro hRN hn
    have hne : (generateInternsData r names R n pos).1 ≠ [] := by
      have hl := generateInternsData_length r names R n pos
      intro he
      rw [he, List.length_nil] at hl
      omega
    obtain ⟨row, hmem⟩ := List.exists_mem_of_ne_nil _ hne
    have hcond : ¬ ((generateInternsData r names R n pos).1.all
        (fun row => row.length = R) = true) := by
      rw [List.all_eq_true]
      push_neg
      refine ⟨row, hmem, ?_⟩
      intro he
      have hlen : row.length = R := of_decide_eq_true he
      rw [(hrow row hmem).length_eq] at hlen
      exact hRN hlen.symm
    unfold generateInternsFrame
    rw [if_neg hcond]
    rfl

theorem sampler_permutation_amended_witness :
    (1 ≤ (["A", "B"] : List String).length ∧ (1 : Nat) ≤ 2) ∧
    ((∀ prefs ∈ (generateInternsData (fun _ => 0) ["A", "B"] 2 1 0).1,
      prefs ~ (["A", "B"] : List String) ∧
        prefs.length = (["A", "B"] : List String).length ∧
        ((["A", "B"] : List String).Nodup → prefs.Nodup) ∧
        (∀ h ∈ (["A", "B"] : List String), h ∈ prefs)) ∧
      ((2 : Nat) = (["A", "B"] : List String).length →
        generateInternsFrame (fun _ => 0) ["A", "B"] 2 1 0
          = .ok (generateInternsData (fun _ => 0) ["A", "B"] 2 1 0)) ∧
      ((2 : Nat) ≠ (["A", "B"] : List String).length → 1 ≤ 1 →
        (generateInternsFrame (fun _ => 0) ["A", "B"] 2 1 0).isOk = false)) :=
  ⟨⟨by decide, by decide⟩,
    sampler_permutation_amended (fun _ => 0) ["A", "B"] 2 1 0
      (by decide) (by decide)⟩

/-- C3: when a hospital exceeds its capacity, the resolution accepts
holders group-by-group in ascending proposal rank — the accepted set has
size exactly the capacity, every holder is either kept or returned to the
unmatched pool, the accepted holders are genuine holders, and every
accepted holder's rank is at most every rejected holder's rank (so a group
is taken whole when it fits, the stopping group loses exactly the
overflow drawn by the oracle, and strictly-worse groups are rejected
entirely). -/
theorem da_rejection_resolution
    (r : Rand) (pos cap : Nat) (holders : List (Nat × Nat))
    (hover : cap < holders.length)
    (hnd : (holders.map Prod.fst).Nodup) :
    (resolveOverCap r pos cap holders).1.length = cap ∧
    ((resolveOverCap r pos cap holders).1.map Prod.fst
      ++ (resolveOverCap r pos cap holders).2.1 ~ holders.map Prod.fst) ∧
    (∀ ip ∈ (resolveOverCap r pos cap holders).1, ip ∈ holders) ∧
    (∀ ip ∈ (resolveOverCap r pos cap holders).1,
      ∀ j ∈ (resolveOverCap r pos cap holders).2.1,
      ∀ q, (j, q) ∈ holders → ip.2 ≤ q) := by
  have hflat : groupPairs (groupByPrio holders) ~ holders := groupByPrio_flat_perm holders
  have hlenflat : ((groupByPrio holders).map Prod.snd).flatten.length = holders.length := by
    rw [← groupPairs_map_fst, List.length_map]
    exact hflat.length_eq
  refine ⟨?_, ?_, ?_, ?_⟩
  · exact acceptGroups_acc_length_eq r _ cap pos (by rw [hlenflat]; exact hover)
  · have h1 := acceptGroups_ids_perm r (groupByPrio holders) cap pos
    have h2 : ((groupByPrio holders).map Prod.snd).flatten ~ holders.map Prod.fst := by
      rw [← groupPairs_map_fst]
      exact hflat.map Prod.fst
    exact h1.trans h2
  · intro ip hip
    exact hflat.mem_iff.mp (acceptGroups_acc_subset r _ cap pos ip hip)
  · intro ip hip j hj q hq
    have hsort : ((groupByPrio holders).map Prod.fst).Pairwise (· < ·) := by
      rw [groupByPrio_map_fst]
      exact priosOf_sorted holders
    obtain ⟨qg, hqg, hjg, hle⟩ := acceptGroups_rank_le r _ cap pos hsort ip hip j hj
    have hpair : (j, qg.1) ∈ groupPairs (groupByPrio holders) :=
      mem_groupPairs_of_mem_group (by exact hqg) hjg
    have hmem : (j, qg.1) ∈ holders := hflat.mem_iff.mp hpair
    have : q = qg.1 := nodup_fst_eq hnd hq hmem
    rw [this]
    exact hle

theorem da_rejection_resolution_witness :
    (1 < ([(0, 0), (1, 0)] : List (Nat × Nat)).length ∧
      (([(0, 0), (1, 0)] : List (Nat × Nat)).map Prod.fst).Nodup) ∧
    ((resolveOverCap (fun _ => 0) 0 1 [(0, 0), (1, 0)]).1.length = 1 ∧
      ((resolveOverCap (fun _ => 0) 0 1 [(0, 0), (1, 0)]).1.map Prod.fst
        ++ (resolveOverCap (fun _ => 0) 0 1 [(0, 0), (1, 0)]).2.1
        ~ ([(0, 0), (1, 0)] : List (Nat × Nat)).map Prod.fst) ∧
      (∀ ip ∈ (resolveOverCap (fun _ => 0) 0 1 [(0, 0), (1, 0)]).1,
        ip ∈ ([(0, 0), (1, 0)] : List (Nat × Nat))) ∧
      (∀ ip ∈ (resolveOverCap (fun _ => 0) 0 1 [(0, 0), (1, 0)]).1,
        ∀ j ∈ (resolveOverCap (fun _ => 0) 0 1 [(0, 0), (1, 0)]).2.1,
        ∀ q, (j, q) ∈ ([(0, 0), (1, 0)] : List (Nat × Nat)) → ip.2 ≤ q)) :=
  ⟨⟨by decide, by decide⟩,
    da_rejection_resolution (fun _ => 0) 0 1 [(0, 0), (1, 0)] (by decide) (by decide)⟩

/-- C4: for every completed DA-path run of `run_simulation`, the result
vector is indexed by exactly the priority table's hospitals, carries 0 for
every hospital never drawn, is sorted in descending order of percentage,
and its values sum to exactly 100 when every trial returns an assigned
hospital (so never more than 100). -/
theorem result_vector_spec
    (r : Rand) (names : List String) (caps : List (String × Nat))
    (internData : List String) (M fuel : Nat)
    (hnd : names.Nodup) (hsub : ∀ x ∈ internData, x ∈ names) (hM : 0 < M)
    (drawn : List String) (q : Nat)
    (htr : runTrialsDA r names caps internData fuel M 0 = .ok (drawn, q)) :
    runSimulationDA r names caps internData M fuel = .ok (resultVector names drawn M) ∧
    (resultVector names drawn M).map Prod.fst ~ names ∧
    (∀ h ∈ names, h ∉ drawn → (h, (0 : ℚ)) ∈ resultVector names drawn M) ∧
    (resultVector names drawn M).Pairwise (fun a b => b.2 ≤ a.2) ∧
    ((resultVector names drawn M).map Prod.snd).sum = 100 ∧
    ((resultVector names drawn M).map Prod.snd).sum ≤ 100 := by
  obtain ⟨hlen, hmem⟩ := runTrialsDA_spec r names caps internData fuel M 0 drawn q htr
  have hsub' : ∀ x ∈ drawn, x ∈ names := fun x hx => hsub x (hmem x hx)
  refine ⟨?_, resultVector_fst_perm names drawn M, ?_, resultVector_sorted names drawn M,
    resultVector_snd_sum names drawn M hnd hsub' hlen hM,
    resultVector_snd_sum_le names drawn M hnd hsub' (le_of_eq hlen) hM⟩
  · unfold runSimulationDA
    rw [htr]
  · intro h hh hnd'
    exact resultVector_zero names drawn M hh hnd'

theorem result_vector_spec_witness :
    ((["A", "B"] : List String).Nodup ∧
      (∀ x ∈ (["A", "B"] : List String), x ∈ (["A", "B"] : List String)) ∧ 0 < 1 ∧
      runTrialsDA (fun _ => 0) ["A", "B"] [("A", 2), ("B", 1)] ["A", "B"] 20 1 0
        = .ok (["A"], 10)) ∧
    (runSimulationDA (fun _ => 0) ["A", "B"] [("A", 2), ("B", 1)] ["A", "B"] 1 20
        = .ok (resultVector ["A", "B"] ["A"] 1) ∧
      (resultVector ["A", "B"] ["A"] 1).map Prod.fst ~ (["A", "B"] : List String) ∧
      (∀ h ∈ (["A", "B"] : List String), h ∉ (["A"] : List String) →
        (h, (0 : ℚ)) ∈ resultVector ["A", "B"] ["A"] 1) ∧
      (resultVector ["A", "B"] ["A"] 1).Pairwise (fun a b => b.2 ≤ a.2) ∧
      ((resultVector ["A", "B"] ["A"] 1).map Prod.snd).sum = 100 ∧
      ((resultVector ["A", "B"] ["A"] 1).map Prod.snd).sum ≤ 100) :=
  ⟨⟨by decide, by decide, by decide, by rfl⟩,
    result_vector_spec (fun _ => 0) ["A", "B"] [("A", 2), ("B", 1)] ["A", "B"] 1 20
      (by decide) (by decide) (by decide) ["A"] 10 (by rfl)⟩

/-- C5: the matrix of `calculate_rsd_probabilities` has every entry in
`[0, 1]`, row sums at most 1, and for every hospital a column sum at most
its capacity; a row sums to strictly less than 1 only if in some iteration
that candidate received no assignment — that is, `run_single_rsd` walked
the candidate's whole list finding no hospital with remaining capacity. -/
theorem rsd_matrix_bounds
    (r : Rand) (prefs : List (List String)) (caps : List (String × Nat))
    (T : Nat) (iters : List (List (Nat × String))) (q : Nat)
    (hndk : (caps.map Prod.fst).Nodup)
    (hpm : ∀ sp ∈ prefs, ∀ h ∈ sp, h ∈ caps.map Prod.fst)
    (hT : 1 ≤ T)
    (hrun : rsdIters r prefs caps T 0 = .ok (iters, q)) :
    (∀ s h, 0 ≤ rsdProb iters T s h ∧ rsdProb iters T s h ≤ 1) ∧
    (∀ s, ((caps.map Prod.fst).map (fun h => rsdProb iters T s h)).sum ≤ 1) ∧
    (∀ hc ∈ caps, ((List.range prefs.length).map
        (fun s => rsdProb iters T s hc.1)).sum ≤ (hc.2 : ℚ)) ∧
    (∀ s, s < prefs.length →
      ((caps.map Prod.fst).map (fun h => rsdProb iters T s h)).sum < 1 →
      ∃ a ∈ iters, s ∉ a.map Prod.fst ∧
        ∃ sp rem0, prefs.get? s = some sp ∧ firstFit rem0 sp = .ok none) := by
  have hTpos : 0 < T := hT
  obtain ⟨hlen, hall⟩ := rsdIters_spec r prefs caps T 0 iters q hrun
  have hprops := fun a (ha : a ∈ iters) =>
    (hall a ha).choose_spec.choose_spec
  have hfst : ∀ a ∈ iters, (a.map Prod.fst).Nodup :=
    fun a ha => (runSingleRSD_props (hprops a ha)).1
  refine ⟨?_, ?_, ?_, ?_⟩
  · intro s h
    exact rsdProb_mem_unit hlen hTpos s h
  · intro s
    exact rsd_row_sum_le_one (hndk) hlen hTpos hfst s
  · intro hc hhc
    have hcap : alookup hc.1 caps = some hc.2 := by
      have : (hc.1, hc.2) ∈ caps := by
        have : (hc.1, hc.2) = hc := rfl
        rw [this]
        exact hhc
      exact alookup_eq_of_mem_of_nodup this hndk
    exact rsd_col_sum_le_cap hlen hTpos
      (fun a ha => (runSingleRSD_props (hprops a ha)).2.1 hc.1 hc.2 hcap)
  · intro s hs hlt
    have hmemnames : ∀ a ∈ iters, ∀ p ∈ a, p.1 = s → p.2 ∈ caps.map Prod.fst := by
      intro a ha p hp _
      obtain ⟨sp, hsp, hmem⟩ := (runSingleRSD_props (hprops a ha)).2.2.2 p hp
      exact hpm sp (List.get?_mem hsp) p.2 hmem
    obtain ⟨a, ha, hna⟩ := rsd_row_missing hlen hTpos hmemnames hlt
    exact ⟨a, ha, hna, (runSingleRSD_props (hprops a ha)).2.2.1 s hs hna⟩

theorem rsd_matrix_bounds_witness :
    ((([("A", 1)] : List (String × Nat)).map Prod.fst).Nodup ∧
      (∀ sp ∈ [["A"]], ∀ h ∈ sp, h ∈ ([("A", 1)] : List (String × Nat)).map Prod.fst) ∧
      (1 : Nat) ≤ 1 ∧
      rsdIters (fun _ => 0) [["A"]] [("A", 1)] 1 0 = .ok ([[(0, "A")]], 1)) ∧
    ((∀ s h, 0 ≤ rsdProb [[(0, "A")]] 1 s h ∧ rsdProb [[(0, "A")]] 1 s h ≤ 1) ∧
      (∀ s, ((([("A", 1)] : List (String × Nat)).map Prod.fst).map
        (fun h => rsdProb [[(0, "A")]] 1 s h)).sum ≤ 1) ∧
      (∀ hc ∈ ([("A", 1)] : List (String × Nat)), ((List.range ([["A"]] : List (List String)).length).map
        (fun s => rsdProb [[(0, "A")]] 1 s hc.1)).sum ≤ (hc.2 : ℚ)) ∧
      (∀ s, s < ([["A"]] : List (List String)).length →
        ((([("A", 1)] : List (String × Nat)).map Prod.fst).map
          (fun h => rsdProb [[(0, "A")]] 1 s h)).sum < 1 →
        ∃ a ∈ [[(0, "A")]], s ∉ a.map Prod.fst ∧
          ∃ sp rem0, ([["A"]] : List (List String)).get? s = some sp ∧
            firstFit rem0 sp = .ok none)) :=
  ⟨⟨by decide, by decide, by decide, by rfl⟩,
    rsd_matrix_bounds (fun _ => 0) [["A"]] [("A", 1)] 1 [[(0, "A")]] 1
      (by decide) (by decide) (by decide) (by rfl)⟩

/-- C6: `trade_probabilities` raises its hard error and returns no matrix
whenever the LP solver reports a non-optimal status; when it returns, the
matrix (the solver's solution of the constraints the code constructed)
has every row summing to exactly 1, squared-rank utility at least the RSD
baseline for every candidate, and every hospital's column sum at most its
capacity. -/
theorem trade_probabilities_spec
    (students : List Nat) (prefs : Nat → List String) (caps : List (String × Nat))
    (p0 : Nat → String → ℚ) (status : Int) (sol : Nat → String → ℚ)
    (hsolver : status = 1 → lpFeasible students prefs caps p0 sol) :
    (status ≠ 1 → trade_probabilities status sol
        = .error "Optimization failed to find a solution") ∧
    (∀ x, trade_probabilities status sol = .ok x →
      (∀ s ∈ students, (caps.map (fun hc => x s hc.1)).sum = 1) ∧
      (∀ s ∈ students, happiness caps.length (prefs s) (x s)
          ≥ happiness caps.length (prefs s) (p0 s)) ∧
      (∀ hc ∈ caps, (students.map (fun s => x s hc.1)).sum ≤ (hc.2 : ℚ))) := by
  constructor
  · intro hne
    unfold trade_probabilities
    rw [if_pos hne]
  · intro x hx
    unfold trade_probabilities at hx
    by_cases hs : status = 1
    · rw [if_neg (by simpa using hs)] at hx
      have hxs : sol = x := Except.ok.inj hx
      obtain ⟨_, hir, hrow, hcap⟩ := hsolver hs
      rw [hxs] at hir hrow hcap
      exact ⟨hrow, hir, hcap⟩
    · rw [if_pos hs] at hx
      cases hx

theorem trade_probabilities_spec_witness :
    (((1 : Int) = 1 →
      lpFeasible [0] (fun _ => ["A"]) [("A", 1)] (fun _ _ => 0) (fun _ _ => 1)) ∧
      trade_probabilities 1 (fun _ _ => (1 : ℚ)) = .ok (fun _ _ => (1 : ℚ))) ∧
    (∀ s ∈ ([0] : List Nat),
      (([("A", 1)] : List (String × Nat)).map
        (fun hc => (fun (_ : Nat) (_ : String) => (1 : ℚ)) s hc.1)).sum = 1) := by
  have hfeas : lpFeasible [0] (fun _ => ["A"]) [("A", 1)] (fun _ _ => 0) (fun _ _ => 1) := by
    refine ⟨?_, ?_, ?_, ?_⟩
    · intro s _ hc _
      norm_num
    · intro s _
      unfold happiness
      norm_num [List.enum]
    · intro s _
      norm_num
    · intro hc hhc
      have : hc = ("A", 1) := by simpa using hhc
      rw [this]
      norm_num
  have hok : trade_probabilities 1 (fun _ _ => (1 : ℚ)) = .ok (fun _ _ => (1 : ℚ)) := by
    unfold trade_probabilities
    norm_num
  refine ⟨⟨fun _ => hfeas, hok⟩, ?_⟩
  exact ((trade_probabilities_spec [0] (fun _ => ["A"]) [("A", 1)] (fun _ _ => 0) 1
    (fun _ _ => 1) (fun _ => hfeas)).2 (fun _ _ => (1 : ℚ)) hok).1

/-- C7: each trial of `simulate_single_intern_match` builds a cohort of
exactly `totalCapacity` preference lists — the real candidate's list at
row 0 plus `totalCapacity - 1` sampled peers — and, when it returns, the
real candidate's hospital appears in the real candidate's preference
list. -/
theorem cohort_and_assignment
    (r : Rand) (pos : Nat) (names : List String) (caps : List (String × Nat))
    (internPriorities : List String) (totalCapacity fuel : Nat)
    (htc : 1 ≤ totalCapacity) :
    (internPriorities ::
      (generateInternsData r names names.length (totalCapacity - 1) pos).1).length
      = totalCapacity ∧
    ∀ (h : String) (p pos' : Nat),
      simulateSingleInternMatch r pos names caps internPriorities totalCapacity fuel
        = .ok ((h, p), pos') → h ∈ internPriorities := by
  constructor
  · simp only [List.length_cons, generateInternsData_length]
    omega
  · intro h p pos' hsim
    exact simulateSingle_assigned_mem hsim

theorem cohort_and_assignment_witness :
    ((1 : Nat) ≤ 3 ∧
      simulateSingleInternMatch (fun _ => 0) 0 ["A", "B"] [("A", 2), ("B", 1)]
        ["A", "B"] 3 20 = .ok (("A", 1), 10)) ∧
    ((["A", "B"] ::
      (generateInternsData (fun _ => 0) ["A", "B"] 2 2 0).1).length = 3 ∧
      "A" ∈ (["A", "B"] : List String)) :=
  ⟨⟨by decide, by rfl⟩,
    ⟨(cohort_and_assignment (fun _ => 0) 0 ["A", "B"] [("A", 2), ("B", 1)]
        ["A", "B"] 3 20 (by decide)).1,
      (cohort_and_assignment (fun _ => 0) 0 ["A", "B"] [("A", 2), ("B", 1)]
        ["A", "B"] 3 20 (by decide)).2 "A" 1 10 (by rfl)⟩⟩

/-- C9 counterexample: `run_simulation` accepts a candidate list that is
not a permutation of the year's sites and completes its trials instead of
rejecting before any trial — no validation exists in the code. -/
theorem no_validation_counterexample :
    ¬ (["A", "A"] : List String).Perm ["A", "B"] ∧
    (runSimulationDA (fun _ => 0) ["A", "B"] [("A", 2), ("B", 1)] ["A", "A"] 1 20).isOk
      = true :=
  ⟨by decide, by rfl⟩

/-- C9 amended: `run_simulation` performs no validation of its inputs —
a candidate list that is not a permutation of the year's sites is
accepted, all trials execute, and a result vector is returned. -/
theorem no_validation_amended :
    ¬ (["A", "A"] : List String).Perm ["A", "B"] ∧
    runSimulationDA (fun _ => 0) ["A", "B"] [("A", 2), ("B", 1)] ["A", "A"] 1 20
      = .ok (resultVector ["A", "B"] ["A"] 1) :=
  ⟨by decide, by rfl⟩

/-- C10: `match_interns_to_hospitals` terminates on every well-formed
finite cohort: each round, every unmatched intern either advances their
cursor or drops out permanently, so rounds are bounded by a function of
(interns × preference columns) and the while-loop ends with a result. -/
theorem da_termination
    (r : Rand) (data : List (List String)) (nCols : Nat) (caps : List (String × Nat))
    (pos : Nat)
    (h1 : ∀ row ∈ data, row.length = nCols)
    (h2 : ∀ row ∈ data, ∀ x ∈ row, x ∈ caps.map Prod.fst) :
    ∃ st, matchInterns r data nCols caps pos (2 * (data.length * nCols) + 2) = .ok st :=
  matchInterns_ok r data nCols caps pos h1 h2

theorem da_termination_witness :
    ((∀ row ∈ [["A", "B"], ["B", "A"]], row.length = 2) ∧
      (∀ row ∈ [["A", "B"], ["B", "A"]], ∀ x ∈ row,
        x ∈ ([("A", 1), ("B", 1)] : List (String × Nat)).map Prod.fst)) ∧
    (matchInterns (fun _ => 0) [["A", "B"], ["B", "A"]] 2 [("A", 1), ("B", 1)] 0
      (2 * (2 * 2) + 2)).isOk = true := by
  refine ⟨⟨by decide, by decide⟩, ?_⟩
  obtain ⟨st, hst⟩ := da_termination (fun _ => 0) [["A", "B"], ["B", "A"]] 2
    [("A", 1), ("B", 1)] 0 (by decide) (by decide)
  rw [show ((2 : Nat) * (([["A", "B"], ["B", "A"]] : List (List String)).length * 2) + 2)
    = 2 * (2 * 2) + 2 from rfl] at hst
  rw [hst]
  rfl

end MedMatch
